import Mathlib

/-!
# kirok-cli: command routing, archive extraction, distribution fetch, template writing

A shallow embedding of `main.go` and `init.go`.

* Go strings are modelled as lists of characters (`Str`).  Every function of the
  program and of the Go library that is used here inspects only the characters
  `/`, `.` and `%`, so byte-wise and character-wise processing coincide.
* The host is a Unix one: `os.PathSeparator` is `/`, there are no volume names.
* The functions of the Go standard library that decide the claims
  (`filepath.Clean`, `Join`, `Dir`, `Rel`, `ToSlash`, `strings.HasPrefix`,
  `os.MkdirAll`, `os.OpenFile`, `(*File).WriteString`, `fmt.Sprintf`) are
  transcribed from the library's Unix implementation; loops over string indices
  become recursion over the text that is left, with a fuel argument where the
  recursion is not structural.
* The filesystem is a set of directories and a map from file names to contents, keyed
  by the path text.  An operation fails only when that state forbids it (a missing
  parent, a file where a directory is needed, ...); permissions, symbolic links and
  quotas are not modelled.  What an archive entry or an HTTP response delivers, and
  whether reading it fails, is part of the input.
* A Go panic is an outcome of its own (`Outcome.panic`), carrying the state reached.
-/

namespace Kirok

/-- A Go string. -/
abbrev Str := List Char

/-! ## main.go: the command router -/

/-- What `main` does, as seen from outside: lines printed by `main` itself and
control passing to the handler of a registered command (named by the command's
`name`) with an argument list. -/
inductive Event where
  | println (s : Str)
  | handler (name : Str) (args : List Str)
  deriving DecidableEq, Repr

/-- `type Command struct`: the `execute` field is the effect of calling the handler. -/
structure Command where
  name : Str
  description : Str
  execute : List Str → List Event

/-- `var HelpCommand`: the handler prints the usage text, whatever its arguments. -/
def HelpCommand : Command :=
  { name := "help".toList
    description := "Prints this help message.".toList
    execute := fun args =>
      [ Event.handler "help".toList args,
        Event.println "Usage: kirok <command> [arguments]".toList,
        Event.println [],
        Event.println "Available commands:".toList,
        Event.println "  help\t\tPrints this help message.".toList,
        Event.println "  init [version]\t\tInitializes a new kirok project.".toList ] }

/-- `var InitCommand`: only the entry into the handler is recorded here; the steps of
its body (`downloadGradle`, `unzip`, `kirokInit`) are modelled on their own below. -/
def InitCommand : Command :=
  { name := "init".toList
    description := "Initializes a new kirok project.".toList
    execute := fun args => [Event.handler "init".toList args] }

/-- `var commands`. -/
def commands : List Command := [HelpCommand, InitCommand]

/-- The `for _, command := range commands` loop of `main`: the first command whose
name is `args[0]` runs with `args[1:]`; when the range is exhausted the notice is
printed and the help handler runs with all of `args`. -/
def mainLoop (arg0 : Str) (rest : List Str) : List Command → List Event
  | [] =>
    Event.println ("Unknown command: ".toList ++ arg0) :: Event.println [] ::
      HelpCommand.execute (arg0 :: rest)
  | command :: more =>
    if command.name = arg0 then command.execute rest else mainLoop arg0 rest more

/-- `func main`, on `args = os.Args[1:]`. -/
def main (args : List Str) : List Event :=
  match args with
  | [] => HelpCommand.execute args
  | arg0 :: rest => mainLoop arg0 rest commands

/-- The handler invocations of a trace. -/
def handlerCalls : List Event → List (Str × List Str)
  | [] => []
  | Event.println _ :: es => handlerCalls es
  | Event.handler n a :: es => (n, a) :: handlerCalls es

/-! ## path/filepath and strings (Unix) -/

/-- `os.PathSeparator`, `filepath.Separator`. -/
def Separator : Char := '/'

/-- `os.IsPathSeparator`. -/
def IsPathSeparator (c : Char) : Bool := c == Separator

/-- `strings.HasPrefix(s, pre)`. -/
def HasPrefix (s pre : Str) : Bool := pre.isPrefixOf s

/-- `strings.Join(elems, "/")`. -/
def joinSep : List Str → Str
  | [] => []
  | [e] => e
  | e :: es => e ++ Separator :: joinSep es

/-- The test `r+1 == n || os.IsPathSeparator(path[r+1])` of `Clean`, on the text that
follows position `r`. -/
def atElemEnd : Str → Bool
  | [] => true
  | d :: _ => IsPathSeparator d

/-- The `..` case of `Clean`: `out.w--`, then
`for out.w > dotdot && !os.IsPathSeparator(out.index(out.w)) { out.w-- }`.
The buffer is kept last byte first. -/
def backtrack (dotdot : Nat) : Str → Str
  | [] => []
  | c :: out => if out.length > dotdot && !IsPathSeparator c then backtrack dotdot out else out

/-- The `for r < n` loop of `filepath.Clean`.  `path` is the text from position `r` on,
`out` the bytes written so far, last byte first (`out.w` is its length), `dotdot` the
index where `..` must stop.  Every round consumes at least one byte of `path`. -/
def cleanLoop (rooted : Bool) : Nat → Str → Str → Nat → Str
  | 0, _, out, _ => out
  | _ + 1, [], out, _ => out
  | fuel + 1, c :: rest, out, dotdot =>
    if IsPathSeparator c then
      -- empty path element
      cleanLoop rooted fuel rest out dotdot
    else if c == '.' && atElemEnd rest then
      -- . element
      cleanLoop rooted fuel rest out dotdot
    else if c == '.' && rest.head? == some '.' && atElemEnd (rest.drop 1) then
      -- .. element: remove to last separator
      if out.length > dotdot then
        cleanLoop rooted fuel (rest.drop 1) (backtrack dotdot out) dotdot
      else if !rooted then
        let out1 := if out.length > 0 then Separator :: out else out
        cleanLoop rooted fuel (rest.drop 1) ('.' :: '.' :: out1) (out1.length + 2)
      else
        cleanLoop rooted fuel (rest.drop 1) out dotdot
    else
      -- real path element: add slash if needed, copy element
      let out1 := if (rooted && out.length != 1) || (!rooted && out.length != 0)
        then Separator :: out else out
      cleanLoop rooted fuel ((c :: rest).dropWhile (fun x => !IsPathSeparator x))
        (((c :: rest).takeWhile (fun x => !IsPathSeparator x)).reverse ++ out1) dotdot

/-- `filepath.Clean`. -/
def Clean (path : Str) : Str :=
  match path with
  | [] => ['.']
  | c :: rest =>
    let out :=
      if IsPathSeparator c then cleanLoop true (path.length + 1) rest [Separator] 1
      else cleanLoop false (path.length + 1) path [] 0
    if out.length == 0 then ['.'] else out.reverse

/-- `filepath.Join`: leading empty elements are skipped, the rest is joined with the
separator and cleaned; all elements empty gives the empty string. -/
def Join (elem : List Str) : Str :=
  match elem.dropWhile (fun e => e.isEmpty) with
  | [] => []
  | e :: es => Clean (joinSep (e :: es))

/-- `filepath.Dir`: the text up to and including the last separator, cleaned. -/
def Dir (path : Str) : Str :=
  Clean (path.reverse.dropWhile (fun c => !IsPathSeparator c)).reverse

/-- `filepath.IsAbs`. -/
def IsAbs (path : Str) : Bool := HasPrefix path [Separator]

/-- The `for bi < bl && ti < tl` loop of `filepath.Rel`.  `b` is `base[b0:]`, `t` is
`targ[t0:]`; at the head of every round `bi = b0` and `ti = t0`.  The result is
`(base[b0:bi], base[b0:], targ[t0:])` on leaving the loop. -/
def relLoop : Nat → Str → Str → Str × Str × Str
  | 0, b, t => ([], b, t)
  | fuel + 1, b, t =>
    if b ≠ [] ∧ t ≠ [] then
      let be := b.takeWhile (fun c => c != Separator)
      let te := t.takeWhile (fun c => c != Separator)
      if te ≠ be then (be, b, t)
      else
        relLoop fuel ((b.dropWhile (fun c => c != Separator)).drop 1)
          ((t.dropWhile (fun c => c != Separator)).drop 1)
    else ([], b, t)

/-- `filepath.Rel`; `none` is the error return. -/
def Rel (basepath targpath : Str) : Option Str :=
  let base := Clean basepath
  let targ := Clean targpath
  if targ = base then some ['.']
  else
    let base := if base = ['.'] then [] else base
    let baseSlashed := base.head? == some Separator
    let targSlashed := targ.head? == some Separator
    if baseSlashed != targSlashed then none
    else
      match relLoop (base.length + 1) base targ with
      | (bElem, bRest, tRest) =>
        if bElem = ['.', '.'] then none
        else if bRest ≠ [] then
          -- Base elements left. Must go up before going down.
          let ups := ['.', '.'] ++
            (List.replicate (bRest.count Separator) [Separator, '.', '.']).flatten
          some (if tRest ≠ [] then ups ++ Separator :: tRest else ups)
        else some tRest

/-- `filepath.ToSlash`: `if Separator == '/' { return path }`, else every separator
is replaced by a slash. -/
def ToSlash (path : Str) : Str :=
  if Separator = '/' then path else path.map (fun c => if c = Separator then '/' else c)

/-! ## The filesystem and the os package -/

/-- The filesystem: the directories that exist and the regular files with their
contents.  The root and the current directory (`.`) always exist. -/
structure FS where
  dirs : List Str
  files : List (Str × Str)
  deriving DecidableEq, Repr

/-- What `os.Stat` finds at a path. -/
inductive FileKind where
  | dir
  | file
  deriving DecidableEq, Repr

/-- `os.Stat`: `none` is the error return (nothing at this path). -/
def FS.stat (fs : FS) (p : Str) : Option FileKind :=
  if p = [Separator] ∨ p = ['.'] ∨ p ∈ fs.dirs then some FileKind.dir
  else if (fs.files.lookup p).isSome then some FileKind.file
  else none

/-- The path is a directory. -/
def FS.isDir (fs : FS) (p : Str) : Bool := fs.stat p == some FileKind.dir

/-- The content of the regular file at a path. -/
def FS.read (fs : FS) (p : Str) : Option Str := fs.files.lookup p

/-- The file at `p` gets the content `data`. -/
def FS.setFile (fs : FS) (p : Str) (data : Str) : FS :=
  { fs with files := (p, data) :: fs.files.filter (fun e => e.1 != p) }

/-- The parent that `os.MkdirAll` creates first: trailing separators are skipped
(`i`), the last element is scanned backwards (`j`), and `path[:j-1]` is the parent
when `j > 1`. -/
def mkdirParent (path : Str) : Option Str :=
  let r := (path.reverse.dropWhile IsPathSeparator).dropWhile (fun c => !IsPathSeparator c)
  if r.length > 1 then some (r.drop 1).reverse else none

/-- `os.Mkdir`: fails when something exists at the path or the parent is missing. -/
def Mkdir (fs : FS) (path : Str) : Option FS :=
  if (fs.stat path).isSome then none
  else
    match mkdirParent path with
    | some parent => if fs.isDir parent then some { fs with dirs := path :: fs.dirs } else none
    | none => some { fs with dirs := path :: fs.dirs }

/-- `os.MkdirAll`, with fuel for the recursion on the parent: a directory at the path
is success, a file there is an error, otherwise the parent is made first and then
the directory itself. -/
def mkdirAllFuel : Nat → FS → Str → Option FS
  | 0, _, _ => none
  | fuel + 1, fs, path =>
    match fs.stat path with
    | some FileKind.dir => some fs
    | some FileKind.file => none
    | none =>
      match mkdirParent path with
      | some parent =>
        match mkdirAllFuel fuel fs parent with
        | some fs1 => Mkdir fs1 path
        | none => none
      | none => Mkdir fs path

/-- `os.MkdirAll`; `none` is the error return.  The parent is shorter than the path,
so the fuel never runs out (`mkdirAllFuel_enough`). -/
def MkdirAll (fs : FS) (path : Str) : Option FS := mkdirAllFuel (path.length + 1) fs path

/-- The access mode of `os.OpenFile`. -/
inductive Access where
  | rdonly
  | wronly
  | rdwr
  deriving DecidableEq, Repr

/-- The `flag` argument of `os.OpenFile`. -/
structure Flags where
  access : Access
  append : Bool
  create : Bool
  trunc : Bool
  deriving DecidableEq, Repr

/-- `os.O_RDONLY`. -/
def O_RDONLY : Flags := ⟨Access.rdonly, false, false, false⟩
/-- `os.O_APPEND|os.O_WRONLY`. -/
def O_APPEND_WRONLY : Flags := ⟨Access.wronly, true, false, false⟩
/-- `os.O_CREATE|os.O_WRONLY`. -/
def O_CREATE_WRONLY : Flags := ⟨Access.wronly, false, true, false⟩
/-- `os.O_WRONLY|os.O_CREATE|os.O_TRUNC`. -/
def O_WRONLY_CREATE_TRUNC : Flags := ⟨Access.wronly, false, true, true⟩
/-- `os.O_RDWR|os.O_CREATE|os.O_TRUNC`, the flags of `os.Create`. -/
def O_RDWR_CREATE_TRUNC : Flags := ⟨Access.rdwr, false, true, true⟩

/-- An open `*os.File`.  Every file of this program is written at most once after it
is opened, so the offset of a write is 0 (or the end, with `O_APPEND`). -/
structure File where
  name : Str
  writable : Bool
  append : Bool
  deriving DecidableEq, Repr

/-- `os.OpenFile`; the second component is `none` for the error return (a nil file).
A directory opens for reading only; an existing file is truncated with `O_TRUNC` and
otherwise left as it is; a missing file is created, empty, with `O_CREATE` when its
directory exists. -/
def OpenFile (fs : FS) (name : Str) (flag : Flags) : FS × Option File :=
  match fs.stat name with
  | some FileKind.dir =>
    if flag.access = Access.rdonly then (fs, some ⟨name, false, false⟩) else (fs, none)
  | some FileKind.file =>
    ((if flag.trunc then fs.setFile name [] else fs),
      some ⟨name, flag.access != Access.rdonly, flag.append⟩)
  | none =>
    if flag.create && fs.isDir (Dir name) then
      (fs.setFile name [], some ⟨name, flag.access != Access.rdonly, flag.append⟩)
    else (fs, none)

/-- `(*File).WriteString`, and `io.Copy` into a file, with the error dropped as the
callers do: on a nil file nothing happens; with `O_APPEND` the bytes go to the end,
otherwise they overwrite the content from offset 0 and what lies beyond them stays. -/
def WriteString (fs : FS) (file : Option File) (s : Str) : FS :=
  match file with
  | none => fs
  | some f =>
    if f.writable then
      match fs.read f.name with
      | some old => fs.setFile f.name (if f.append then old ++ s else s ++ old.drop s.length)
      | none => fs
    else fs

/-- How a call ends: it returns a value, or it panics. -/
inductive Outcome (σ α : Type) where
  | ret (s : σ) (a : α)
  | panic (s : σ)
  deriving DecidableEq, Repr

/-- The state in which the call ended. -/
def Outcome.state {σ α : Type} : Outcome σ α → σ
  | Outcome.ret s _ => s
  | Outcome.panic s => s

/-- The call panicked. -/
def Outcome.panicked {σ α : Type} : Outcome σ α → Bool
  | Outcome.ret _ _ => false
  | Outcome.panic _ => true

/-- `func ifErrPanic(err error)`: with an error (`none`) the call panics in the
state `s`, without one the rest `k` runs. -/
def ifErrPanic {σ α β : Type} (s : σ) (r : Option β) (k : β → Outcome σ α) : Outcome σ α :=
  match r with
  | none => Outcome.panic s
  | some b => k b

/-! ## init.go: unzip and downloadGradle -/

/-- A `*zip.File` of the archive: its name, whether `f.FileInfo().IsDir()` holds,
whether `f.Open()` fails, the bytes `io.Copy` gets out of it, and whether that copy
ends with an error (the bytes are then what was copied before it). -/
structure ZipEntry where
  Name : Str
  IsDir : Bool
  openFails : Bool
  data : Str
  copyFails : Bool
  deriving DecidableEq, Repr

/-- The body of the `for _, f := range archive.File` loop of `unzip` for an entry that
is not a directory (lines 95 to 114): parent directories, destination file, open,
copy; each error panics. -/
def extractFile (fs : FS) (filePath : Str) (f : ZipEntry) : Outcome FS Unit :=
  ifErrPanic fs (MkdirAll fs (Dir filePath)) fun fs1 =>
    match OpenFile fs1 filePath O_WRONLY_CREATE_TRUNC with
    | (fs2, dstFile) =>
      ifErrPanic fs2 dstFile fun dst =>
        if f.openFails then Outcome.panic fs2
        else
          let fs3 := WriteString fs2 (some dst) f.data
          if f.copyFails then Outcome.panic fs3 else Outcome.ret fs3 ()

/-- The `for _, f := range archive.File` loop of `unzip`. -/
def unzipLoop (dest : Str) : List ZipEntry → FS → Outcome FS Unit
  | [], fs => Outcome.ret fs ()
  | f :: rest, fs =>
    let filePath := Join [dest, f.Name]
    if !HasPrefix filePath (Clean dest ++ [Separator]) then
      Outcome.ret fs ()
    else if f.IsDir then
      -- `_ = os.MkdirAll(filePath, os.ModePerm)`, `continue`
      unzipLoop dest rest ((MkdirAll fs filePath).getD fs)
    else
      match extractFile fs filePath f with
      | Outcome.ret fs1 _ => unzipLoop dest rest fs1
      | Outcome.panic fs1 => Outcome.panic fs1

/-- A successful `http.Get`: the bytes the body delivers, and whether reading the body
ends with an error after them. -/
structure Response where
  body : Str
  readFails : Bool
  deriving DecidableEq, Repr

/-- What the program takes from outside: the temporary directory (`os.TempDir()`), the
answer to an HTTP GET (`none` is the error return) and what `zip.OpenReader` makes of
a file's content (`none` is the error return). -/
structure Env where
  tempDir : Str
  httpGet : Str → Option Response
  zipOpen : Str → Option (List ZipEntry)

/-- The effects recorded beside the filesystem: HTTP requests and extractions. -/
inductive Effect where
  | httpGet (url : Str)
  | unzip (src dest : Str)
  deriving DecidableEq, Repr

/-- The filesystem and the record of network requests and extractions. -/
structure World where
  fs : FS
  log : List Effect
  deriving DecidableEq, Repr

/-- `func unzip(src, dest string)`. -/
def unzip (env : Env) (src dest : Str) (w : World) : Outcome World Unit :=
  let w1 : World := { w with log := w.log ++ [Effect.unzip src dest] }
  ifErrPanic w1 ((w1.fs.read src).bind env.zipOpen) fun archive =>
    match unzipLoop dest archive w1.fs with
    | Outcome.ret fs _ => Outcome.ret { w1 with fs := fs } ()
    | Outcome.panic fs => Outcome.panic { w1 with fs := fs }

/-- The `url` of `downloadGradle`. -/
def gradleUrl : Str := "https://downloads.gradle.org/distributions/gradle-8.3-bin.zip".toList

/-- `func downloadGradle() string`.  `out.Stat()` fails exactly when the first
`os.OpenFile` returned a nil file. -/
def downloadGradle (env : Env) (w : World) : Outcome World Str :=
  let tempFolder := env.tempDir
  let zipPath := Join [tempFolder, "gradle.zip".toList]
  let result := Join [tempFolder, "gradle-8.3".toList, "bin".toList, "gradle".toList]
  match OpenFile w.fs zipPath O_RDONLY with
  | (_, some _) => Outcome.ret w result
  | (_, none) =>
    match OpenFile w.fs zipPath O_RDWR_CREATE_TRUNC with
    | (fs1, out) =>
      ifErrPanic { w with fs := fs1 } out fun out =>
        let w1 : World := { fs := fs1, log := w.log ++ [Effect.httpGet gradleUrl] }
        ifErrPanic w1 (env.httpGet gradleUrl) fun resp =>
          -- `_, _ = io.Copy(out, resp.Body)`
          let w2 : World := { w1 with fs := WriteString w1.fs (some out) resp.body }
          match unzip env zipPath tempFolder w2 with
          | Outcome.ret w3 _ => Outcome.ret w3 result
          | Outcome.panic w3 => Outcome.panic w3

/-! ## init.go: kirokInit -/

/-- The `%!(EXTRA string=..., ...)` that `fmt.Sprintf` appends for operands no verb
used. -/
def extraArgs : List Str → Str
  | [] => []
  | a :: args =>
    "%!(EXTRA ".toList ++ joinComma ((a :: args).map (fun x => "string=".toList ++ x)) ++ [')']
where
  /-- The operands, separated by a comma and a blank. -/
  joinComma : List Str → Str
    | [] => []
    | [e] => e
    | e :: es => e ++ ", ".toList ++ joinComma es

/-- `fmt.Sprintf` on string operands, for the verbs `%s` and `%%`: each `%s` takes the
next operand (`%!s(MISSING)` when none is left), operands left over are reported at
the end.  Other verbs, flags and widths do not occur in this program and are copied
as they stand. -/
def Sprintf : Str → List Str → Str
  | [], args => extraArgs args
  | c :: rest, args =>
    if c = '%' then
      match rest with
      | [] => "%!(NOVERB)".toList ++ extraArgs args
      | v :: rest1 =>
        if v = 's' then
          match args with
          | a :: args1 => a ++ Sprintf rest1 args1
          | [] => "%!s(MISSING)".toList ++ Sprintf rest1 []
        else if v = '%' then '%' :: Sprintf rest1 args
        else c :: v :: Sprintf rest1 args
    else c :: Sprintf rest args

/-- The raw string literal written to `settings.gradle.kts` (init.go, lines 172 to 180). -/
def settingsBlock : Str :=
  String.toList (String.join [
    "\n",
    "pluginManagement \x7b\n",
    "    repositories \x7b\n",
    "        mavenCentral()\n",
    "        mavenLocal()\n",
    "        gradlePluginPortal()\n",
    "    \x7d\n",
    "\x7d\n"])

/-- The build script template up to the first verb (init.go, lines 191 to 199): it ends
in the `version` of the kirok plugin. -/
def buildHead : List Str :=
  [ String.toList "\n",
    String.toList "import io.github.devngho.kirok.plugin.kirok\n",
    String.toList "import org.jetbrains.kotlin.gradle.targets.js.binaryen.BinaryenRootPlugin\n",
    String.toList "\n",
    String.toList "plugins \x7b\n",
    String.toList "    kotlin(\"multiplatform\") version \"1.9.0\"\n",
    String.toList "    kotlin(\"plugin.serialization\") version \"1.9.0\"\n",
    String.toList "    id(\"com.google.devtools.ksp\") version \"1.9.0-1.0.13\"\n",
    String.toList "    id(\"io.github.devngho.kirok.plugin\") version \"" ]

/-- The template between the first and the second verb (lines 199 to 231): it ends in
`wasmDir`. -/
def buildMid1 : List Str :=
  [ String.toList "\"\n",
    String.toList "\x7d\n",
    String.toList "\n",
    String.toList "group = \"com.example\"\n",
    String.toList "version = \"1.0-SNAPSHOT\"\n",
    String.toList "\n",
    String.toList "repositories \x7b\n",
    String.toList "    mavenCentral()\n",
    String.toList "    mavenLocal()\n",
    String.toList "\x7d\n",
    String.toList "\n",
    String.toList "kotlin \x7b\n",
    String.toList "    jvm()\n",
    String.toList "    wasm \x7b\n",
    String.toList "        binaries.executable()\n",
    String.toList "        browser \x7b\n",
    String.toList "\t\t\twebpackTask \x7b\n",
    String.toList "                enabled = false\n",
    String.toList "            \x7d\n",
    String.toList "\t\t\x7d\n",
    String.toList "        applyBinaryen()\n",
    String.toList "    \x7d\n",
    String.toList "    sourceSets \x7b\n",
    String.toList "        val jvmMain by getting \x7b\n",
    String.toList "\t\t\tdependencies \x7b\n",
    String.toList "\t\t\t\t// Add your bindings, dependencies here\n",
    String.toList "\t\t\t\x7d\n",
    String.toList "\t\t\x7d\n",
    String.toList "    \x7d\n",
    String.toList "\x7d\n",
    String.toList "\n",
    String.toList "kirok \x7b\n",
    String.toList "    wasmDir = \"" ]

/-- The template between the second and the third verb (lines 231 to 232): it ends in
`wasmJsDir`. -/
def buildMid2 : List Str :=
  [ String.toList "\"\n",
    String.toList "    wasmJsDir = \"" ]

/-- The template between the third and the fourth verb (lines 232 to 233): it ends in
`bindingDir`. -/
def buildMid3 : List Str :=
  [ String.toList "\"\n",
    String.toList "    bindingDir = \"" ]

/-- The template after the fourth verb (lines 233 to 239). -/
def buildTail : List Str :=
  [ String.toList "\"\n",
    String.toList "    // Add your bindings here\n",
    String.toList "    binding = listOf()\n",
    String.toList "\x7d\n",
    String.toList "\n",
    String.toList "dependencies.kirok(project)\n" ]

/-- The build script with its four fields filled in, in the order in which they stand
in the text: the version of the kirok plugin, `wasmDir`, `wasmJsDir`, `bindingDir`. -/
def scriptWith (pluginVersion wasmDir wasmJsDir bindingDir : Str) : Str :=
  buildHead.flatten ++ (pluginVersion ++ (buildMid1.flatten ++ (wasmDir ++
    (buildMid2.flatten ++ (wasmJsDir ++ (buildMid3.flatten ++ (bindingDir ++
      buildTail.flatten)))))))

/-- The format string of the build script (init.go, lines 191 to 239): the raw string
literal, which has the verb `%s` at each of the four fields. -/
def buildTemplate : Str :=
  scriptWith "%s".toList "%s".toList "%s".toList "%s".toList

/-- The raw string literal written to `Sample.kt` (init.go, lines 250 to 267). -/
def sampleSource : Str :=
  String.toList (String.join [
    "\n",
    "import io.github.devngho.kirok.Init\n",
    "import io.github.devngho.kirok.Intent\n",
    "import io.github.devngho.kirok.Model\n",
    "import kotlinx.serialization.Serializable\n",
    "\n",
    "@Serializable\n",
    "@Model\n",
    "data class Sample(var count: Int)\n",
    "\n",
    "@Init\n",
    "fun init(): Sample = Sample(0)\n",
    "\n",
    "@Intent\n",
    "fun increment(counter: Sample) \x7b\n",
    "    counter.count++\n",
    "\x7d\n"])

/-- The text that `kirokInit` writes to `build.gradle.kts`: the `fmt.Sprintf` call of
lines 190 to 239, with its operands in the order of line 239. -/
def buildScript (targetProjectDir targetWasmDir targetBindingDir version : Str) : Str :=
  let relWasmDir := (Rel targetProjectDir targetWasmDir).getD []
  let relBindingDir := (Rel targetProjectDir targetBindingDir).getD []
  Sprintf buildTemplate
    [ToSlash relWasmDir, ToSlash relBindingDir, ToSlash relBindingDir, version]

/-- `filepath.Join(targetProjectDir, "settings.gradle.kts")` (line 167). -/
def settingsPath (targetProjectDir : Str) : Str :=
  Join [targetProjectDir, "settings.gradle.kts".toList]

/-- `filepath.Join(targetProjectDir, "build.gradle.kts")` (line 182). -/
def buildPath (targetProjectDir : Str) : Str :=
  Join [targetProjectDir, "build.gradle.kts".toList]

/-- `filepath.Join(targetProjectDir, "src", "commonMain", "kotlin")` (line 242). -/
def srcDir (targetProjectDir : Str) : Str :=
  Join [targetProjectDir, "src".toList, "commonMain".toList, "kotlin".toList]

/-- `filepath.Join(targetProjectDir, "src", "commonMain", "kotlin", "Sample.kt")`
(line 245). -/
def samplePath (targetProjectDir : Str) : Str :=
  Join [targetProjectDir, "src".toList, "commonMain".toList, "kotlin".toList,
    "Sample.kt".toList]

/-- `func kirokInit`.  The errors of `os.OpenFile`, `WriteString` and `filepath.Rel`
are dropped (`_`); only `os.MkdirAll` goes through `ifErrPanic`. -/
def kirokInit (fs : FS) (targetProjectDir targetWasmDir targetBindingDir version : Str) :
    Outcome FS Unit :=
  -- 1. Modify settings.gradle.kts
  match OpenFile fs (settingsPath targetProjectDir) O_APPEND_WRONLY with
  | (fs1, file1) =>
    let fs2 := WriteString fs1 file1 settingsBlock
    -- 2. Modify build.gradle.kts
    match OpenFile fs2 (buildPath targetProjectDir) O_CREATE_WRONLY with
    | (fs3, file2) =>
      let fs4 := WriteString fs3 file2
        (buildScript targetProjectDir targetWasmDir targetBindingDir version)
      -- 3. add src directory
      ifErrPanic fs4 (MkdirAll fs4 (srcDir targetProjectDir)) fun fs5 =>
        -- 4. add sample code
        match OpenFile fs5 (samplePath targetProjectDir) O_CREATE_WRONLY with
        | (fs6, file3) => Outcome.ret (WriteString fs6 file3 sampleSource) ()

/-! ## Paths as lists of elements (the reading used in the proofs) -/

/-- The texts between the separators of a path. -/
def splitSep : Str → List Str
  | [] => [[]]
  | c :: rest =>
    if c = Separator then [] :: splitSep rest
    else (c :: (splitSep rest).headD []) :: (splitSep rest).tail

/-- The element `..`. -/
def dotdot : Str := ['.', '.']

/-- The output buffer of `Clean` read as elements: `ups` leading `..` elements, then
the names written after them, innermost first. -/
structure Lex where
  ups : Nat
  names : List Str
  deriving DecidableEq

/-- The elements of the buffer, outermost first. -/
def Lex.elems (s : Lex) : List Str := List.replicate s.ups dotdot ++ s.names.reverse

/-- The bytes of the buffer. -/
def Lex.render (rooted : Bool) (s : Lex) : Str :=
  (if rooted then [Separator] else []) ++ joinSep s.elems

/-- The value of `dotdot` that goes with the buffer. -/
def Lex.stop (rooted : Bool) (s : Lex) : Nat :=
  if rooted then 1 else (joinSep (List.replicate s.ups dotdot)).length

/-- The buffer of a rooted path has no `..`; names are not empty and hold no separator. -/
def Lex.Valid (rooted : Bool) (s : Lex) : Prop :=
  (rooted = true → s.ups = 0) ∧ ∀ e ∈ s.names, e ≠ [] ∧ Separator ∉ e

/-- What one element of the path does to the buffer. -/
def lexStep (rooted : Bool) (s : Lex) (e : Str) : Lex :=
  if e = [] ∨ e = ['.'] then s
  else if e = dotdot then
    match s.names with
    | _ :: below => { s with names := below }
    | [] => if rooted then s else { s with ups := s.ups + 1 }
  else { s with names := e :: s.names }

/-- The buffer after a list of elements. -/
def lexRun (rooted : Bool) (s : Lex) (es : List Str) : Lex := es.foldl (lexStep rooted) s

/-- The buffer of `Clean path` at the end of its loop. -/
def lexOf (path : Str) : Lex := lexRun (IsAbs path) ⟨0, []⟩ (splitSep path)

/-- A name that `Clean` keeps as it is: not empty, no separator, neither `.` nor `..`. -/
def Ordinary (e : Str) : Prop := e ≠ [] ∧ Separator ∉ e ∧ e ≠ ['.'] ∧ e ≠ dotdot

instance (e : Str) : Decidable (Ordinary e) := by unfold Ordinary; infer_instance

/-- The names a buffer holds are ordinary, and a rooted buffer has no `..`. -/
def Lex.Canon (rooted : Bool) (s : Lex) : Prop :=
  (rooted = true → s.ups = 0) ∧ ∀ e ∈ s.names, Ordinary e

/-- The text that `Join` puts in front of a name joined onto `dest`: the cleaned
`dest` and a separator, or nothing more than the root or the empty text when the
cleaned `dest` has no element. -/
def joinBase (dest : Str) : Str :=
  (lexOf dest).render (IsAbs dest) ++ (if (lexOf dest).elems = [] then [] else [Separator])

/-- The path `D/s1/.../sn`. -/
def under (D : Str) (segs : List Str) : Str :=
  D ++ (segs.map (fun s => Separator :: s)).flatten

/-- The two filesystems agree at every path that does not start with `pre`: the same
directories exist there and the same files, with the same contents. -/
def FS.agreeOutside (pre : Str) (fs fs1 : FS) : Prop :=
  ∀ p, HasPrefix p pre = false → (p ∈ fs1.dirs ↔ p ∈ fs.dirs) ∧ fs1.read p = fs.read p

/-- An `os.OpenFile` followed by one `WriteString` on the file it returned, as
`kirokInit` does three times. -/
def writeTo (fs : FS) (name : Str) (flag : Flags) (s : Str) : FS :=
  WriteString (OpenFile fs name flag).1 (OpenFile fs name flag).2 s

/-- The names of the directories along a path, from the outermost to the innermost:
the elements of the cleaned path. -/
def components (path : Str) : List Str :=
  (splitSep (Clean path)).filter (fun e => !e.isEmpty)

/-- The number of leading elements two lists have in common. -/
def commonLen : List Str → List Str → Nat
  | a :: as, b :: bs => if a = b then commonLen as bs + 1 else 0
  | _, _ => 0

/-! ## Concrete inputs -/

/-- An archive with a harmless entry, an entry that climbs out of the destination, and
an entry after it. -/
def slipArchive : List ZipEntry :=
  [ ⟨"ok.txt".toList, false, false, "hi".toList, false⟩,
    ⟨"../../etc/passwd".toList, false, false, "evil".toList, false⟩,
    ⟨"later.txt".toList, false, false, "late".toList, false⟩ ]

/-- Every file parses as `slipArchive`; there is no network. -/
def slipEnv : Env :=
  { tempDir := "/tmp".toList
    httpGet := fun _ => none
    zipOpen := fun _ => some slipArchive }

/-- A filesystem with `/tmp/a.zip` and `/etc/passwd`. -/
def slipWorld : World :=
  { fs := { dirs := ["/tmp".toList, "/etc".toList]
            files := [("/tmp/a.zip".toList, "PK".toList), ("/etc/passwd".toList, "root".toList)] }
    log := [] }

/-- A filesystem in which a regular file named `a` lies in the directory `/d`. -/
def blockedFS : FS :=
  { dirs := ["/d".toList], files := [("/d/a".toList, "old".toList)] }

/-- A directory entry `a` (whose directory cannot be made in `blockedFS`) and a file
entry after it. -/
def blockedArchive : List ZipEntry :=
  [ ⟨"a".toList, true, false, [], false⟩,
    ⟨"b.txt".toList, false, false, "x".toList, false⟩ ]

/-- A file entry below `a`: its parent directory cannot be made in `blockedFS`. -/
def blockedFileEntry : ZipEntry := ⟨"a/c.txt".toList, false, false, "y".toList, false⟩

/-- A world in which the cache archive `/tmp/gradle.zip` is present. -/
def cachedWorld : World :=
  { fs := { dirs := ["/tmp".toList], files := [("/tmp/gradle.zip".toList, "PK".toList)] }
    log := [] }

/-- A world with an empty `/tmp`. -/
def freshWorld : World :=
  { fs := { dirs := ["/tmp".toList], files := [] }, log := [] }

/-- A world without `/tmp`: the archive file cannot be created. -/
def noTmpWorld : World :=
  { fs := { dirs := [], files := [] }, log := [] }

/-- The GET succeeds and the body delivers a whole archive, then reading it ends with
an error (say, fewer bytes than the announced length). -/
def lossyEnv : Env :=
  { tempDir := "/tmp".toList
    httpGet := fun _ => some ⟨"PK".toList, true⟩
    zipOpen := fun content =>
      if content = "PK".toList then
        some [⟨"gradle-8.3/bin/gradle".toList, false, false, "#!/bin/sh".toList, false⟩]
      else none }

/-- A project directory in which `build.gradle.kts` already holds the block of an
earlier run followed by a line of its own. -/
def staleFS : FS :=
  { dirs := ["/p".toList, "/w".toList, "/b".toList]
    files := [("/p/build.gradle.kts".toList,
      buildScript "/p".toList "/w".toList "/b".toList "1.1.0".toList ++ "// mine\n".toList)] }

/-- A project directory with the `settings.gradle.kts` that the bootstrapper wrote. -/
def settingsFS : FS :=
  { dirs := ["/p".toList]
    files := [("/p/settings.gradle.kts".toList, "rootProject.name = \"demo\"\n".toList)] }

/-- An empty project directory: the bootstrapper wrote nothing. -/
def emptyProjectFS : FS :=
  { dirs := ["/p".toList], files := [] }

/-- The backslash, an ordinary character of a file name on a Unix host. -/
def backslash : Char := Char.ofNat 92

/-- A target directory whose name holds a backslash. -/
def backslashTarget : Str := ['/', 'w', backslash, 'x']

/-! ## Theorems

### Splitting and joining at separators -/

theorem splitSep_ne_nil (s : Str) : splitSep s ≠ [] := by
  cases s with
  | nil => simp [splitSep]
  | cons c rest =>
    unfold splitSep
    split <;> simp

theorem splitSep_cons_sep (rest : Str) : splitSep (Separator :: rest) = [] :: splitSep rest := by
  simp [splitSep]

theorem splitSep_cons_ne (c : Char) (rest : Str) (h : c ≠ Separator) :
    splitSep (c :: rest) = (c :: (splitSep rest).headD []) :: (splitSep rest).tail := by
  simp [splitSep, h]

theorem splitSep_nosep (e : Str) (h : Separator ∉ e) : splitSep e = [e] := by
  induction e with
  | nil => rfl
  | cons c rest ih =>
    have hc : c ≠ Separator := fun hc => h (by simp [hc])
    have hr : Separator ∉ rest := fun hr => h (List.mem_cons_of_mem _ hr)
    rw [splitSep_cons_ne c rest hc, ih hr]
    rfl

theorem splitSep_append_sep (a b : Str) :
    splitSep (a ++ Separator :: b) = splitSep a ++ splitSep b := by
  induction a with
  | nil => simp [splitSep]
  | cons c rest ih =>
    by_cases hc : c = Separator
    · subst hc
      simp only [List.cons_append, splitSep_cons_sep, ih]
    · simp only [List.cons_append]
      rw [splitSep_cons_ne c _ hc, splitSep_cons_ne c _ hc, ih]
      cases hs : splitSep rest with
      | nil => exact absurd hs (splitSep_ne_nil rest)
      | cons x xs => simp

theorem splitSep_nosep_append_sep (e b : Str) (h : Separator ∉ e) :
    splitSep (e ++ Separator :: b) = e :: splitSep b := by
  rw [splitSep_append_sep, splitSep_nosep e h]
  rfl

theorem joinSep_cons_cons (e f : Str) (es : List Str) :
    joinSep (e :: f :: es) = e ++ Separator :: joinSep (f :: es) := rfl

theorem joinSep_cons_of_ne_nil (e : Str) (es : List Str) (h : es ≠ []) :
    joinSep (e :: es) = e ++ Separator :: joinSep es := by
  cases es with
  | nil => exact absurd rfl h
  | cons f fs => rfl

theorem joinSep_splitSep (s : Str) : joinSep (splitSep s) = s := by
  induction s with
  | nil => rfl
  | cons c rest ih =>
    by_cases hc : c = Separator
    · subst hc
      rw [splitSep_cons_sep, joinSep_cons_of_ne_nil _ _ (splitSep_ne_nil rest), ih]
      rfl
    · rw [splitSep_cons_ne c rest hc]
      cases hs : splitSep rest with
      | nil => exact absurd hs (splitSep_ne_nil rest)
      | cons x xs =>
        rw [hs] at ih
        cases xs with
        | nil =>
          simp only [List.headD_cons, List.tail_cons, joinSep] at ih ⊢
          rw [ih]
        | cons y ys =>
          simp only [List.headD_cons, List.tail_cons, joinSep_cons_cons] at ih ⊢
          rw [← ih]
          rfl

theorem splitSep_joinSep (es : List Str) (hne : es ≠ []) (h : ∀ e ∈ es, Separator ∉ e) :
    splitSep (joinSep es) = es := by
  induction es with
  | nil => exact absurd rfl hne
  | cons e rest ih =>
    cases rest with
    | nil => exact splitSep_nosep e (h e (by simp))
    | cons f fs =>
      rw [joinSep_cons_cons, splitSep_nosep_append_sep e _ (h e (by simp)),
        ih (by simp) (fun x hx => h x (List.mem_cons_of_mem _ hx))]

theorem joinSep_append (a b : List Str) (ha : a ≠ []) (hb : b ≠ []) :
    joinSep (a ++ b) = joinSep a ++ Separator :: joinSep b := by
  induction a with
  | nil => exact absurd rfl ha
  | cons e rest ih =>
    cases rest with
    | nil =>
      simp only [List.singleton_append]
      rw [joinSep_cons_of_ne_nil e b hb]
      rfl
    | cons f fs =>
      simp only [List.cons_append, joinSep_cons_cons, List.append_assoc] at ih ⊢
      rw [ih (by simp)]

theorem joinSep_concat (a : List Str) (e : Str) (ha : a ≠ []) :
    joinSep (a ++ [e]) = joinSep a ++ Separator :: e :=
  joinSep_append a [e] ha (by simp)

theorem joinSep_eq_nil (es : List Str) (h : ∀ e ∈ es, e ≠ []) (hj : joinSep es = []) :
    es = [] := by
  cases es with
  | nil => rfl
  | cons e rest =>
    exfalso
    have he := h e (by simp)
    cases rest with
    | nil => exact he hj
    | cons f fs =>
      rw [joinSep_cons_cons] at hj
      exact he (List.append_eq_nil.mp hj).1

/-! ### `Clean` read as a run over the elements of the path -/

theorem isPathSeparator_iff (c : Char) : IsPathSeparator c = true ↔ c = Separator := by
  simp [IsPathSeparator]

theorem splitSep_eq_takeWhile (p : Str) :
    splitSep p = p.takeWhile (fun x => !IsPathSeparator x) ::
      (match p.dropWhile (fun x => !IsPathSeparator x) with
        | [] => []
        | _ :: r => splitSep r) := by
  induction p with
  | nil => rfl
  | cons c rest ih =>
    by_cases hc : c = Separator
    · subst hc
      simp [splitSep_cons_sep, IsPathSeparator]
    · have hc2 : IsPathSeparator c = false := by simp [IsPathSeparator, hc]
      rw [splitSep_cons_ne c rest hc, ih]
      simp [List.takeWhile_cons, List.dropWhile_cons, hc2]

theorem lexStep_nil (rooted : Bool) (s : Lex) : lexStep rooted s [] = s := by
  simp [lexStep]

theorem lexStep_dot (rooted : Bool) (s : Lex) : lexStep rooted s ['.'] = s := by
  simp [lexStep]

theorem lexRun_cons (rooted : Bool) (s : Lex) (e : Str) (es : List Str) :
    lexRun rooted s (e :: es) = lexRun rooted (lexStep rooted s e) es := rfl

theorem lexRun_append (rooted : Bool) (s : Lex) (a b : List Str) :
    lexRun rooted s (a ++ b) = lexRun rooted (lexRun rooted s a) b := by
  simp [lexRun, List.foldl_append]

theorem lexRun_splitSep (rooted : Bool) (s : Lex) (p : Str) :
    lexRun rooted s (splitSep p) =
      lexRun rooted (lexStep rooted s (p.takeWhile (fun x => !IsPathSeparator x)))
        (splitSep (p.dropWhile (fun x => !IsPathSeparator x))) := by
  rw [splitSep_eq_takeWhile p, lexRun_cons]
  generalize lexStep rooted s (p.takeWhile (fun x => !IsPathSeparator x)) = s1
  have hd := List.head?_dropWhile_not (fun x => !IsPathSeparator x) p
  cases hr : p.dropWhile (fun x => !IsPathSeparator x) with
  | nil => simp [splitSep, lexRun, lexStep_nil]
  | cons d r =>
    rw [hr] at hd
    have hd1 : d = Separator := by
      simpa [IsPathSeparator] using hd
    subst hd1
    simp [splitSep_cons_sep, lexRun_cons, lexStep_nil]

theorem Lex.valid_step (rooted : Bool) (s : Lex) (e : Str) (hs : s.Valid rooted)
    (he : Separator ∉ e) : (lexStep rooted s e).Valid rooted := by
  unfold lexStep
  split
  · exact hs
  · split
    · cases hn : s.names with
      | nil =>
        cases rooted with
        | true => exact hs
        | false =>
          refine ⟨fun h => absurd h (by decide), ?_⟩
          simp [hn]
      | cons top below =>
        refine ⟨hs.1, ?_⟩
        intro x hx
        exact hs.2 x (by rw [hn]; exact List.mem_cons_of_mem _ hx)
    · rename_i h1 h2
      refine ⟨hs.1, ?_⟩
      intro x hx
      simp only [List.mem_cons] at hx
      rcases hx with rfl | hx
      · exact ⟨fun h => h1 (Or.inl h), he⟩
      · exact hs.2 x hx

theorem Lex.elems_ne_nil_of_mem (s : Lex) (rooted : Bool) (hs : s.Valid rooted) :
    ∀ e ∈ s.elems, e ≠ [] := by
  intro e he
  simp only [Lex.elems, List.mem_append, List.mem_replicate, List.mem_reverse] at he
  rcases he with ⟨_, rfl⟩ | he
  · simp [dotdot]
  · exact (hs.2 e he).1

theorem Lex.elems_push (s : Lex) (e : Str) :
    Lex.elems { s with names := e :: s.names } = s.elems ++ [e] := by
  simp [Lex.elems]

theorem Lex.render_push (rooted : Bool) (s : Lex) (e : Str) :
    Lex.render rooted { s with names := e :: s.names } =
      s.render rooted ++ ((if s.elems = [] then [] else [Separator]) ++ e) := by
  unfold Lex.render
  rw [Lex.elems_push]
  by_cases h : s.elems = []
  · simp [h, joinSep]
  · rw [joinSep_concat _ _ h]
    simp [h]

theorem Lex.stop_push (rooted : Bool) (s : Lex) (e : Str) :
    Lex.stop rooted { s with names := e :: s.names } = s.stop rooted := rfl

theorem Lex.stop_le_aux (rooted : Bool) (ups : Nat) (names : List Str) :
    Lex.stop rooted ⟨ups, names⟩ ≤ (Lex.render rooted ⟨ups, names⟩).length := by
  induction names with
  | nil =>
    unfold Lex.stop Lex.render Lex.elems
    cases rooted <;> simp
  | cons top below ih =>
    have h3 := Lex.render_push rooted ⟨ups, below⟩ top
    simp only at h3
    rw [h3]
    simp only [List.length_append]
    have h4 : Lex.stop rooted ⟨ups, top :: below⟩ = Lex.stop rooted ⟨ups, below⟩ := rfl
    rw [h4]
    omega

theorem Lex.stop_le (rooted : Bool) (s : Lex) : s.stop rooted ≤ (s.render rooted).length :=
  Lex.stop_le_aux rooted s.ups s.names

theorem Lex.stop_eq (rooted : Bool) (s : Lex) (hs : s.Valid rooted) (hn : s.names = []) :
    (s.render rooted).length = s.stop rooted := by
  unfold Lex.stop Lex.render Lex.elems
  cases rooted with
  | true =>
    have := hs.1 rfl
    simp [hn, this, joinSep]
  | false => simp [hn]

theorem Lex.elems_eq_nil_iff (s : Lex) : s.elems = [] ↔ s.ups = 0 ∧ s.names = [] := by
  simp [Lex.elems, List.replicate_eq_nil_iff]

theorem Lex.render_length_test (rooted : Bool) (s : Lex) (hs : s.Valid rooted) :
    ((rooted && (s.render rooted).reverse.length != 1) ||
      (!rooted && (s.render rooted).reverse.length != 0)) = true ↔ s.elems ≠ [] := by
  have hne := Lex.elems_ne_nil_of_mem s rooted hs
  have hj : joinSep s.elems = [] ↔ s.elems = [] :=
    ⟨joinSep_eq_nil _ hne, fun h => by rw [h]; rfl⟩
  unfold Lex.render
  cases rooted with
  | true =>
    simp only [Bool.true_and, Bool.not_true, Bool.false_and, Bool.or_false, if_true,
      List.length_reverse, List.length_append, List.length_singleton, bne_iff_ne, ne_eq]
    rw [← hj, ← List.length_eq_zero]
    omega
  | false =>
    simp only [Bool.false_and, Bool.not_false, Bool.true_and, Bool.false_or,
      List.length_reverse, List.nil_append, bne_iff_ne, ne_eq, Bool.false_eq_true, if_false]
    rw [← hj, ← List.length_eq_zero]

theorem backtrack_word (dd : Nat) (w R : Str) (hw : w ≠ []) (hsep : Separator ∉ w)
    (hR : dd ≤ R.length) :
    backtrack dd (w ++ R) = if R.length > dd then backtrack dd R else R := by
  induction w with
  | nil => exact absurd rfl hw
  | cons c w1 ih =>
    have hc : IsPathSeparator c = false := by
      have : c ≠ Separator := fun h => hsep (by simp [h])
      simp [IsPathSeparator, this]
    cases w1 with
    | nil =>
      simp only [List.singleton_append, backtrack, hc]
      by_cases h : R.length > dd <;> simp [h]
    | cons d w2 =>
      have ih1 := ih (by simp) (fun h => hsep (List.mem_cons_of_mem _ h))
      simp only [List.cons_append] at ih1 ⊢
      rw [backtrack]
      have hlen : (d :: (w2 ++ R)).length > dd := by
        simp only [List.length_cons, List.length_append]; omega
      simp only [hlen, hc, decide_True, Bool.not_false, Bool.and_self, if_true]
      exact ih1

theorem Lex.backtrack_pop (rooted : Bool) (ups : Nat) (top : Str) (below : List Str)
    (hs : Lex.Valid rooted ⟨ups, top :: below⟩) :
    backtrack (Lex.stop rooted ⟨ups, top :: below⟩)
        (Lex.render rooted ⟨ups, top :: below⟩).reverse =
      (Lex.render rooted ⟨ups, below⟩).reverse := by
  have htop := hs.2 top (by simp)
  have hs1 : Lex.Valid rooted ⟨ups, below⟩ :=
    ⟨hs.1, fun e he => hs.2 e (List.mem_cons_of_mem _ he)⟩
  have h3 := Lex.render_push rooted ⟨ups, below⟩ top
  simp only at h3
  rw [h3, Lex.stop_push rooted ⟨ups, below⟩ top]
  simp only [List.reverse_append, List.append_assoc]
  have hle := Lex.stop_le rooted ⟨ups, below⟩
  rw [backtrack_word _ top.reverse _ (by simpa using htop.1) (by simpa using htop.2)
    (by simp only [List.length_append, List.length_reverse]; omega)]
  by_cases he : Lex.elems ⟨ups, below⟩ = []
  · have hb := (Lex.elems_eq_nil_iff _).mp he
    have heq := Lex.stop_eq rooted ⟨ups, below⟩ hs1 hb.2
    simp [he, heq]
  · have hgt : (([Separator] : Str).reverse ++ (Lex.render rooted ⟨ups, below⟩).reverse).length >
        Lex.stop rooted ⟨ups, below⟩ := by
      simp only [List.reverse_singleton, List.singleton_append, List.length_cons,
        List.length_reverse]
      omega
    simp only [he, if_false, hgt, if_true]
    simp [backtrack, IsPathSeparator]


theorem Lex.render_ups (ups : Nat) :
    Lex.render false ⟨ups + 1, []⟩ =
      Lex.render false ⟨ups, []⟩ ++ ((if ups = 0 then [] else [Separator]) ++ dotdot) := by
  unfold Lex.render Lex.elems
  simp only [List.reverse_nil, List.append_nil, Bool.false_eq_true, if_false, List.nil_append]
  rw [List.replicate_succ']
  cases ups with
  | zero => simp [joinSep]
  | succ n =>
    rw [joinSep_concat _ _ (by simp [List.replicate_succ])]
    simp

theorem Lex.render_ups_length (ups : Nat) :
    0 < (Lex.render false ⟨ups, []⟩).length ↔ ups ≠ 0 := by
  unfold Lex.render Lex.elems
  cases ups with
  | zero => simp [joinSep]
  | succ n =>
    simp only [List.reverse_nil, List.append_nil, Bool.false_eq_true, if_false,
      List.nil_append, ne_eq, Nat.succ_ne_zero, not_false_eq_true, iff_true]
    rw [List.replicate_succ]
    cases n with
    | zero => simp [joinSep, dotdot]
    | succ m =>
      rw [List.replicate_succ, joinSep_cons_cons]
      simp [dotdot]

theorem atElemEnd_iff (r : Str) :
    atElemEnd r = true ↔ r.takeWhile (fun x => !IsPathSeparator x) = [] := by
  cases r with
  | nil => simp [atElemEnd]
  | cons d r1 =>
    simp only [atElemEnd, List.takeWhile_cons]
    cases h : IsPathSeparator d <;> simp

theorem dropWhile_of_atElemEnd (r : Str) (h : atElemEnd r = true) :
    r.dropWhile (fun x => !IsPathSeparator x) = r := by
  cases r with
  | nil => rfl
  | cons d r1 =>
    simp only [atElemEnd] at h
    simp [List.dropWhile_cons, h]

theorem takeWhile_nosep (r : Str) :
    Separator ∉ r.takeWhile (fun x => !IsPathSeparator x) := by
  intro h
  have := List.mem_takeWhile_imp h
  simp [IsPathSeparator] at this

theorem length_dropWhile_le (p : Char → Bool) (r : Str) : (r.dropWhile p).length ≤ r.length := by
  induction r with
  | nil => simp
  | cons c r1 ih =>
    simp only [List.dropWhile_cons]
    split
    · simp only [List.length_cons]; omega
    · simp

theorem cleanLoop_eq (rooted : Bool) (fuel : Nat) :
    ∀ (path : Str) (s : Lex), path.length < fuel → s.Valid rooted →
      cleanLoop rooted fuel path (s.render rooted).reverse (s.stop rooted) =
        ((lexRun rooted s (splitSep path)).render rooted).reverse := by
  induction fuel with
  | zero => intro path s h; exact absurd h (Nat.not_lt_zero _)
  | succ fuel ih =>
    intro path s hlen hs
    cases path with
    | nil => simp [cleanLoop, splitSep, lexRun, lexStep_nil]
    | cons c rest =>
      have hrest : rest.length < fuel := by simpa using hlen
      rw [cleanLoop]
      by_cases hsep : IsPathSeparator c = true
      · have hc := (isPathSeparator_iff c).mp hsep
        subst hc
        rw [if_pos hsep, splitSep_cons_sep, lexRun_cons, lexStep_nil]
        exact ih rest s hrest hs
      · rw [if_neg hsep, lexRun_splitSep]
        have hcf : IsPathSeparator c = false := by simpa using hsep
        have htake : (c :: rest).takeWhile (fun x => !IsPathSeparator x) =
            c :: rest.takeWhile (fun x => !IsPathSeparator x) := by
          simp [List.takeWhile_cons, hcf]
        have hdrop : (c :: rest).dropWhile (fun x => !IsPathSeparator x) =
            rest.dropWhile (fun x => !IsPathSeparator x) := by
          simp [List.dropWhile_cons, hcf]
        have hdlen : (rest.dropWhile (fun x => !IsPathSeparator x)).length < fuel :=
          Nat.lt_of_le_of_lt (length_dropWhile_le _ _) hrest
        by_cases h1 : (c == '.' && atElemEnd rest) = true
        · rw [if_pos h1]
          simp only [Bool.and_eq_true, beq_iff_eq] at h1
          obtain ⟨hc, hend⟩ := h1
          subst hc
          rw [htake, hdrop, (atElemEnd_iff rest).mp hend, lexStep_dot,
            dropWhile_of_atElemEnd rest hend]
          exact ih rest s hrest hs
        · rw [if_neg h1]
          by_cases h2 : (c == '.' && rest.head? == some '.' && atElemEnd (rest.drop 1)) = true
          · rw [if_pos h2]
            simp only [Bool.and_eq_true, beq_iff_eq] at h2
            obtain ⟨⟨hc, hhead⟩, hend⟩ := h2
            subst hc
            cases rest with
            | nil => simp at hhead
            | cons d rest2 =>
              simp only [List.head?_cons, Option.some.injEq] at hhead
              subst hhead
              simp only [List.drop_succ_cons, List.drop_zero] at hend ⊢
              have hdot : IsPathSeparator '.' = false := by decide
              have hrest2 : rest2.length < fuel := by
                simp only [List.length_cons] at hrest; omega
              have he : ('.' :: '.' :: rest2).takeWhile (fun x => !IsPathSeparator x) = dotdot := by
                simp [List.takeWhile_cons, hdot, (atElemEnd_iff rest2).mp hend, dotdot]
              have hd : ('.' :: '.' :: rest2).dropWhile (fun x => !IsPathSeparator x) = rest2 := by
                simp [List.dropWhile_cons, hdot, dropWhile_of_atElemEnd rest2 hend]
              rw [he, hd]
              obtain ⟨ups, names⟩ := s
              cases names with
              | nil =>
                have hstop := Lex.stop_eq rooted ⟨ups, []⟩ hs rfl
                have hnot : ¬ ((Lex.render rooted ⟨ups, []⟩).reverse.length >
                    Lex.stop rooted ⟨ups, []⟩) := by
                  rw [List.length_reverse, hstop]; exact Nat.lt_irrefl _
                rw [if_neg hnot]
                cases rooted with
                | true =>
                  simp only [Bool.not_true, Bool.false_eq_true, if_false]
                  have : lexStep true ⟨ups, []⟩ dotdot = ⟨ups, []⟩ := by
                    simp [lexStep, dotdot]
                  rw [this]
                  exact ih rest2 ⟨ups, []⟩ hrest2 hs
                | false =>
                  simp only [Bool.not_false, if_true]
                  have hstep : lexStep false ⟨ups, []⟩ dotdot = ⟨ups + 1, []⟩ := by
                    simp [lexStep, dotdot]
                  rw [hstep]
                  have hv : Lex.Valid false ⟨ups + 1, []⟩ :=
                    ⟨fun h => absurd h (by decide), by simp⟩
                  have key := ih rest2 ⟨ups + 1, []⟩ hrest2 hv
                  have hr := Lex.render_ups ups
                  have hl := Lex.render_ups_length ups
                  have hout : ('.' :: '.' ::
                      (if (Lex.render false ⟨ups, []⟩).reverse.length > 0
                        then Separator :: (Lex.render false ⟨ups, []⟩).reverse
                        else (Lex.render false ⟨ups, []⟩).reverse)) =
                      (Lex.render false ⟨ups + 1, []⟩).reverse := by
                    rw [hr, List.length_reverse]
                    by_cases hu : ups = 0
                    · subst hu
                      have h0 : Lex.render false ⟨0, []⟩ = [] := rfl
                      simp [h0, dotdot]
                    · have : 0 < (Lex.render false ⟨ups, []⟩).length := hl.mpr hu
                      simp [hu, this, dotdot]
                  have hdd : (if (Lex.render false ⟨ups, []⟩).reverse.length > 0
                        then Separator :: (Lex.render false ⟨ups, []⟩).reverse
                        else (Lex.render false ⟨ups, []⟩).reverse).length + 2 =
                      Lex.stop false ⟨ups + 1, []⟩ := by
                    have h5 := congrArg List.length hout
                    rw [← Lex.stop_eq false ⟨ups + 1, []⟩ hv rfl]
                    simp only [List.length_cons, List.length_reverse] at h5 ⊢
                    omega
                  rw [hdd, hout]
                  exact key
              | cons top below =>
                have hv : Lex.Valid rooted ⟨ups, below⟩ :=
                  ⟨hs.1, fun e he => hs.2 e (List.mem_cons_of_mem _ he)⟩
                have hgt : (Lex.render rooted ⟨ups, top :: below⟩).reverse.length >
                    Lex.stop rooted ⟨ups, top :: below⟩ := by
                  have h3 := Lex.render_push rooted ⟨ups, below⟩ top
                  simp only at h3
                  have h4 := Lex.stop_le rooted ⟨ups, below⟩
                  have h5 : top ≠ [] := (hs.2 top (by simp)).1
                  have h6 : 0 < top.length := List.length_pos.mpr h5
                  rw [List.length_reverse, h3, Lex.stop_push rooted ⟨ups, below⟩ top]
                  simp only [List.length_append]
                  omega
                rw [if_pos hgt, Lex.backtrack_pop rooted ups top below hs]
                have hstep : lexStep rooted ⟨ups, top :: below⟩ dotdot = ⟨ups, below⟩ := by
                  simp [lexStep, dotdot]
                rw [hstep]
                exact ih rest2 ⟨ups, below⟩ hrest2 hv
          · rw [if_neg h2, htake, hdrop]
            have he1 : c :: rest.takeWhile (fun x => !IsPathSeparator x) ≠ ['.'] := by
              intro h
              simp only [List.cons.injEq] at h
              exact h1 (by simp [h.1, (atElemEnd_iff rest).mpr h.2])
            have he2 : c :: rest.takeWhile (fun x => !IsPathSeparator x) ≠ dotdot := by
              intro h
              simp only [dotdot, List.cons.injEq] at h
              obtain ⟨hc, ht⟩ := h
              cases rest with
              | nil => simp at ht
              | cons d rest2 =>
                simp only [List.takeWhile_cons] at ht
                split at ht
                · simp only [List.cons.injEq] at ht
                  exact h2 (by simp [hc, ht.1, (atElemEnd_iff rest2).mpr ht.2])
                · simp at ht
            have hsepfree : Separator ∉ c :: rest.takeWhile (fun x => !IsPathSeparator x) := by
              rw [← htake]; exact takeWhile_nosep _
            have hstep : lexStep rooted s (c :: rest.takeWhile (fun x => !IsPathSeparator x)) =
                { s with names := (c :: rest.takeWhile (fun x => !IsPathSeparator x)) :: s.names } := by
              simp [lexStep, he1, he2]
            have hv := Lex.valid_step rooted s _ hs hsepfree
            rw [hstep] at hv ⊢
            have key := ih _ _ hdlen hv
            rw [Lex.render_push, Lex.stop_push] at key
            have ht := Lex.render_length_test rooted s hs
            by_cases hel : s.elems = []
            · have hf : ¬ (((rooted && (s.render rooted).reverse.length != 1) ||
                  (!rooted && (s.render rooted).reverse.length != 0)) = true) := by
                rw [ht]; simpa using hel
              rw [if_neg hf]
              rw [if_pos hel] at key
              simpa using key
            · rw [if_pos (ht.mpr hel)]
              rw [if_neg hel] at key
              simpa using key

/-! ### `Clean` and `Join` in terms of elements -/

theorem isAbs_cons (c : Char) (rest : Str) : IsAbs (c :: rest) = IsPathSeparator c := by
  simp only [IsAbs, HasPrefix, List.isPrefixOf, IsPathSeparator, Bool.and_true]
  by_cases h : c = Separator
  · subst h; simp
  · have h2 : ¬ (Separator = c) := fun h3 => h h3.symm
    simp [h, h2]

theorem isAbs_nil : IsAbs [] = false := rfl

theorem Lex.valid_empty (rooted : Bool) : Lex.Valid rooted ⟨0, []⟩ :=
  ⟨fun _ => rfl, by simp⟩

/-- `Clean` is the rendering of the buffer that the elements of the path leave, with
`.` for an empty one. -/
theorem Clean_eq (path : Str) :
    Clean path =
      if (lexOf path).render (IsAbs path) = [] then ['.']
      else (lexOf path).render (IsAbs path) := by
  cases path with
  | nil => rfl
  | cons c rest =>
    unfold Clean lexOf
    rw [isAbs_cons]
    by_cases hsep : IsPathSeparator c = true
    · have hc := (isPathSeparator_iff c).mp hsep
      subst hc
      simp only [hsep, if_true]
      have key := cleanLoop_eq true ((Separator :: rest).length + 1) rest ⟨0, []⟩
        (by simp only [List.length_cons]; omega) (Lex.valid_empty true)
      have h1 : (Lex.render true ⟨0, []⟩).reverse = [Separator] := rfl
      have h2 : Lex.stop true ⟨0, []⟩ = 1 := rfl
      rw [h1, h2] at key
      rw [key, splitSep_cons_sep, lexRun_cons, lexStep_nil]
      simp only [List.length_reverse, List.reverse_reverse, beq_iff_eq, List.length_eq_zero]
    · have hcf : IsPathSeparator c = false := by simpa using hsep
      simp only [hcf, Bool.false_eq_true, if_false]
      have key := cleanLoop_eq false ((c :: rest).length + 1) (c :: rest) ⟨0, []⟩
        (by omega) (Lex.valid_empty false)
      have h1 : (Lex.render false ⟨0, []⟩).reverse = [] := rfl
      have h2 : Lex.stop false ⟨0, []⟩ = 0 := rfl
      rw [h1, h2] at key
      rw [key]
      simp only [List.length_reverse, List.reverse_reverse, beq_iff_eq, List.length_eq_zero]

theorem Lex.Canon.valid {rooted : Bool} {s : Lex} (h : s.Canon rooted) : s.Valid rooted :=
  ⟨h.1, fun e he => ⟨(h.2 e he).1, (h.2 e he).2.1⟩⟩

theorem Lex.canon_step (rooted : Bool) (s : Lex) (e : Str) (hs : s.Canon rooted)
    (he : Separator ∉ e) : (lexStep rooted s e).Canon rooted := by
  unfold lexStep
  split
  · exact hs
  · split
    · cases hn : s.names with
      | nil =>
        cases rooted with
        | true => exact hs
        | false =>
          refine ⟨fun h => absurd h (by decide), ?_⟩
          simp [hn]
      | cons top below =>
        refine ⟨hs.1, ?_⟩
        intro x hx
        exact hs.2 x (by rw [hn]; exact List.mem_cons_of_mem _ hx)
    · rename_i h1 h2
      refine ⟨hs.1, ?_⟩
      intro x hx
      simp only [List.mem_cons] at hx
      rcases hx with rfl | hx
      · exact ⟨fun h => h1 (Or.inl h), he, fun h => h1 (Or.inr h), h2⟩
      · exact hs.2 x hx

theorem Lex.canon_run (rooted : Bool) (es : List Str) :
    ∀ s : Lex, s.Canon rooted → (∀ e ∈ es, Separator ∉ e) → (lexRun rooted s es).Canon rooted := by
  induction es with
  | nil => intro s hs _; exact hs
  | cons e rest ih =>
    intro s hs he
    rw [lexRun_cons]
    exact ih _ (Lex.canon_step rooted s e hs (he e (by simp)))
      (fun x hx => he x (List.mem_cons_of_mem _ hx))

theorem splitSep_nosep_mem (p : Str) : ∀ e ∈ splitSep p, Separator ∉ e := by
  induction p with
  | nil => simp [splitSep]
  | cons c rest ih =>
    by_cases hc : c = Separator
    · subst hc
      rw [splitSep_cons_sep]
      intro e he
      simp only [List.mem_cons] at he
      rcases he with rfl | he
      · simp
      · exact ih e he
    · rw [splitSep_cons_ne c rest hc]
      cases hs : splitSep rest with
      | nil => exact absurd hs (splitSep_ne_nil rest)
      | cons x xs =>
        rw [hs] at ih
        intro e he
        simp only [List.headD_cons, List.tail_cons, List.mem_cons] at he
        rcases he with rfl | he
        · intro hmem
          simp only [List.mem_cons] at hmem
          rcases hmem with h | h
          · exact hc h.symm
          · exact ih x (by simp) h
        · exact ih e (List.mem_cons_of_mem _ he)

theorem lexOf_canon (path : Str) : (lexOf path).Canon (IsAbs path) :=
  Lex.canon_run _ _ _ ⟨fun _ => rfl, by simp⟩ (splitSep_nosep_mem path)

theorem lexRun_ordinary (rooted : Bool) (segs : List Str) (h : ∀ e ∈ segs, Ordinary e) :
    ∀ s : Lex, lexRun rooted s segs = ⟨s.ups, segs.reverse ++ s.names⟩ := by
  induction segs with
  | nil => intro s; rfl
  | cons e rest ih =>
    intro s
    have he := h e (by simp)
    have hstep : lexStep rooted s e = ⟨s.ups, e :: s.names⟩ := by
      simp [lexStep, he.1, he.2.2.1, he.2.2.2]
    rw [lexRun_cons, hstep, ih (fun x hx => h x (List.mem_cons_of_mem _ hx))]
    simp

theorem lexRun_dotdots (n : Nat) :
    ∀ ups : Nat, lexRun false ⟨ups, []⟩ (List.replicate n dotdot) = ⟨ups + n, []⟩ := by
  induction n with
  | zero => intro ups; rfl
  | succ n ih =>
    intro ups
    have hstep : lexStep false ⟨ups, []⟩ dotdot = ⟨ups + 1, []⟩ := by
      simp [lexStep, dotdot]
    rw [List.replicate_succ, lexRun_cons, hstep, ih]
    congr 1
    omega

/-- Running over the elements of a buffer, from the empty buffer, gives the buffer back. -/
theorem lexRun_elems (rooted : Bool) (s : Lex) (hs : s.Canon rooted) :
    lexRun rooted ⟨0, []⟩ s.elems = s := by
  obtain ⟨ups, names⟩ := s
  unfold Lex.elems
  rw [lexRun_append]
  have hord : ∀ e ∈ names.reverse, Ordinary e := fun e he => hs.2 e (by simpa using he)
  cases rooted with
  | true =>
    have h0 : ups = 0 := hs.1 rfl
    subst h0
    simp only [List.replicate_zero]
    have : lexRun true ⟨0, []⟩ [] = ⟨0, []⟩ := rfl
    rw [this, lexRun_ordinary true _ hord]
    simp
  | false =>
    rw [lexRun_dotdots, lexRun_ordinary false _ hord]
    simp

theorem isAbs_append (dest x : Str) (h : dest ≠ []) : IsAbs (dest ++ x) = IsAbs dest := by
  cases dest with
  | nil => exact absurd rfl h
  | cons c rest => simp only [List.cons_append, isAbs_cons]

theorem lexOf_append_sep (dest name : Str) (h : dest ≠ []) :
    lexOf (dest ++ Separator :: name) = lexRun (IsAbs dest) (lexOf dest) (splitSep name) := by
  unfold lexOf
  rw [isAbs_append dest _ h, splitSep_append_sep, lexRun_append]

theorem Ordinary.ne_nil {e : Str} (h : Ordinary e) : e ≠ [] := h.1

theorem Ordinary.nosep {e : Str} (h : Ordinary e) : Separator ∉ e := h.2.1

theorem joinSep_ne_nil (segs : List Str) (hne : segs ≠ []) (h : ∀ e ∈ segs, e ≠ []) :
    joinSep segs ≠ [] := fun hj => hne (joinSep_eq_nil segs h hj)

theorem Lex.render_ne_nil (rooted : Bool) (s : Lex) (hs : s.Valid rooted) (he : s.elems ≠ []) :
    s.render rooted ≠ [] := by
  unfold Lex.render
  intro h
  have h2 := (List.append_eq_nil.mp h).2
  exact he (joinSep_eq_nil _ (Lex.elems_ne_nil_of_mem s rooted hs) h2)

theorem Lex.render_empty (rooted : Bool) (s : Lex) (he : s.elems = []) :
    s.render rooted = if rooted then [Separator] else [] := by
  unfold Lex.render
  rw [he]
  cases rooted <;> rfl

theorem Lex.render_push_many (rooted : Bool) (s : Lex) (segs : List Str) (hne : segs ≠ []) :
    Lex.render rooted ⟨s.ups, segs.reverse ++ s.names⟩ =
      s.render rooted ++ (if s.elems = [] then [] else [Separator]) ++ joinSep segs := by
  unfold Lex.render
  have he : Lex.elems ⟨s.ups, segs.reverse ++ s.names⟩ = s.elems ++ segs := by
    simp [Lex.elems]
  rw [he]
  by_cases h : s.elems = []
  · simp [h, joinSep]
  · rw [joinSep_append _ _ h hne]
    simp [h]

theorem Clean_of_elems_ne_nil (path : Str) (h : (lexOf path).elems ≠ []) :
    Clean path = (lexOf path).render (IsAbs path) := by
  rw [Clean_eq, if_neg (Lex.render_ne_nil _ _ (lexOf_canon path).valid h)]

theorem Clean_of_elems_eq_nil (path : Str) (h : (lexOf path).elems = []) :
    Clean path = if IsAbs path then [Separator] else ['.'] := by
  rw [Clean_eq, Lex.render_empty _ _ h]
  cases IsAbs path <;> simp

theorem isAbs_joinSep_ordinary (segs : List Str) (h : ∀ e ∈ segs, Ordinary e) :
    IsAbs (joinSep segs) = false := by
  cases segs with
  | nil => rfl
  | cons e rest =>
    have he := h e (by simp)
    cases e with
    | nil => exact absurd rfl he.1
    | cons c e1 =>
      have hc : IsPathSeparator c = false := by
        have : c ≠ Separator := fun hc => he.2.1 (by simp [hc])
        simp [IsPathSeparator, this]
      cases rest with
      | nil => simpa [joinSep, isAbs_cons] using hc
      | cons f fs => simpa [joinSep_cons_cons, isAbs_cons] using hc

/-- `Join(dest, name)` for a name made of ordinary segments: the segments are put
behind the cleaned `dest`. -/
theorem Join_two (dest : Str) (segs : List Str) (hne : segs ≠ [])
    (h : ∀ e ∈ segs, Ordinary e) :
    Join [dest, joinSep segs] = joinBase dest ++ joinSep segs := by
  have hnosep : ∀ e ∈ segs, Separator ∉ e := fun e he => (h e he).2.1
  have hnn : joinSep segs ≠ [] := joinSep_ne_nil segs hne (fun e he => (h e he).1)
  have hcanon := lexOf_canon dest
  have hrun : ∀ rooted : Bool, lexRun rooted (lexOf dest) (splitSep (joinSep segs)) =
      ⟨(lexOf dest).ups, segs.reverse ++ (lexOf dest).names⟩ := by
    intro rooted
    rw [splitSep_joinSep segs hne hnosep, lexRun_ordinary rooted segs h]
  have hel : ∀ s : Lex, Lex.elems ⟨s.ups, segs.reverse ++ s.names⟩ ≠ [] := by
    intro s
    simp [Lex.elems, hne]
  cases dest with
  | nil =>
    have hj : Join [[], joinSep segs] = Clean (joinSep segs) := by
      unfold Join
      cases hjs : joinSep segs with
      | nil => exact absurd hjs hnn
      | cons c r => simp [joinSep]
    have hlex : lexOf (joinSep segs) = ⟨0, segs.reverse⟩ := by
      unfold lexOf
      rw [splitSep_joinSep segs hne hnosep, lexRun_ordinary _ segs h]
      simp
    have habs := isAbs_joinSep_ordinary segs h
    rw [hj, Clean_of_elems_ne_nil _ (by rw [hlex]; simp [Lex.elems, hne]), hlex, habs]
    have := Lex.render_push_many false ⟨0, []⟩ segs hne
    simp only [List.append_nil] at this
    rw [this]
    rfl
  | cons c rest =>
    have hj : Join [c :: rest, joinSep segs] = Clean ((c :: rest) ++ Separator :: joinSep segs) := by
      simp [Join, joinSep]
    have hlex := lexOf_append_sep (c :: rest) (joinSep segs) (by simp)
    rw [hrun] at hlex
    rw [hj, Clean_of_elems_ne_nil _ (by rw [hlex]; exact hel _), hlex,
      isAbs_append (c :: rest) _ (by simp), Lex.render_push_many _ _ segs hne]
    unfold joinBase
    simp

theorem joinBase_of_clean (dest : Str) (h1 : Clean dest ≠ [Separator])
    (h2 : Clean dest ≠ ['.']) : joinBase dest = Clean dest ++ [Separator] := by
  have hel : (lexOf dest).elems ≠ [] := by
    intro he
    have := Clean_of_elems_eq_nil dest he
    cases hab : IsAbs dest with
    | true => rw [hab] at this; exact h1 this
    | false => rw [hab] at this; exact h2 this
  unfold joinBase
  rw [Clean_of_elems_ne_nil dest hel, if_neg hel]

theorem Join_cons (dest : Str) (segs : List Str) (hne : segs ≠ [])
    (h : ∀ e ∈ segs, e ≠ []) : Join (dest :: segs) = Join [dest, joinSep segs] := by
  have hnn : joinSep segs ≠ [] := joinSep_ne_nil segs hne h
  cases segs with
  | nil => exact absurd rfl hne
  | cons e rest =>
    have he : e ≠ [] := h e (by simp)
    cases dest with
    | nil =>
      cases hjs : joinSep (e :: rest) with
      | nil => exact absurd hjs hnn
      | cons c r =>
        cases e with
        | nil => exact absurd rfl he
        | cons c1 e1 =>
          simp only [Join, List.dropWhile, List.isEmpty, joinSep]
          rw [← hjs]
    | cons c d => simp [Join, joinSep]

/-! ### The filesystem -/

theorem lookup_filter_ne (files : List (Str × Str)) (p q : Str) (h : q ≠ p) :
    List.lookup q (files.filter (fun e => e.1 != p)) = List.lookup q files := by
  induction files with
  | nil => rfl
  | cons e rest ih =>
    obtain ⟨k, v⟩ := e
    by_cases hk : k = p
    · subst hk
      have hq : (q == k) = false := by simpa using h
      simp [List.filter_cons, List.lookup_cons, hq, ih]
    · have hk2 : (k != p) = true := by simpa using hk
      simp only [List.filter_cons, hk2, if_true, List.lookup_cons, ih]

theorem FS.read_setFile (fs : FS) (p q data : Str) :
    (fs.setFile p data).read q = if q = p then some data else fs.read q := by
  unfold FS.read FS.setFile
  by_cases h : q = p
  · subst h; simp [List.lookup_cons]
  · have hq : (q == p) = false := by simpa using h
    simp only [List.lookup_cons, hq, h, if_false]
    exact lookup_filter_ne _ _ _ h

theorem FS.dirs_setFile (fs : FS) (p data : Str) : (fs.setFile p data).dirs = fs.dirs := rfl

theorem FS.isDir_iff (fs : FS) (p : Str) :
    fs.isDir p = true ↔ p = [Separator] ∨ p = ['.'] ∨ p ∈ fs.dirs := by
  unfold FS.isDir FS.stat
  by_cases h : p = [Separator] ∨ p = ['.'] ∨ p ∈ fs.dirs
  · simp [h]
  · simp only [h, if_false, iff_false]
    split <;> simp

theorem FS.stat_dir_iff (fs : FS) (p : Str) :
    fs.stat p = some FileKind.dir ↔ fs.isDir p = true := by
  simp [FS.isDir]

theorem FS.isDir_setFile (fs : FS) (p data q : Str) :
    (fs.setFile p data).isDir q = fs.isDir q := by
  rw [Bool.eq_iff_iff, FS.isDir_iff, FS.isDir_iff, FS.dirs_setFile]

theorem FS.agreeOutside_refl (pre : Str) (fs : FS) : FS.agreeOutside pre fs fs :=
  fun _ _ => ⟨Iff.rfl, rfl⟩

theorem FS.agreeOutside_trans {pre : Str} {a b c : FS} (h1 : FS.agreeOutside pre a b)
    (h2 : FS.agreeOutside pre b c) : FS.agreeOutside pre a c :=
  fun p hp => ⟨(h2 p hp).1.trans (h1 p hp).1, (h2 p hp).2.trans (h1 p hp).2⟩

theorem FS.agreeOutside_setFile (pre : Str) (fs : FS) (p data : Str)
    (hp : HasPrefix p pre = true) : FS.agreeOutside pre fs (fs.setFile p data) := by
  intro q hq
  refine ⟨Iff.rfl, ?_⟩
  rw [FS.read_setFile, if_neg]
  intro h
  rw [h, hp] at hq
  exact absurd hq (by decide)

theorem under_nil (D : Str) : under D [] = D := by simp [under]

theorem under_concat (D : Str) (segs : List Str) (s : Str) :
    under D (segs ++ [s]) = under D segs ++ Separator :: s := by
  simp [under]

theorem under_cons (D : Str) (s : Str) (segs : List Str) :
    under D (s :: segs) = under (D ++ Separator :: s) segs := by
  simp [under]

theorem under_eq_joinSep (D : Str) (segs : List Str) (hne : segs ≠ []) :
    under D segs = D ++ Separator :: joinSep segs := by
  induction segs generalizing D with
  | nil => exact absurd rfl hne
  | cons s rest ih =>
    cases rest with
    | nil => simp [under, joinSep]
    | cons t ts =>
      rw [under_cons, ih _ (by simp), joinSep_cons_cons]
      simp

theorem hasPrefix_append (pre rest : Str) : HasPrefix (pre ++ rest) pre = true := by
  unfold HasPrefix
  rw [List.isPrefixOf_iff_prefix]
  exact List.prefix_append pre rest

theorem hasPrefix_under (D : Str) (segs : List Str) (hne : segs ≠ []) :
    HasPrefix (under D segs) (D ++ [Separator]) = true := by
  rw [under_eq_joinSep D segs hne]
  have : D ++ Separator :: joinSep segs = (D ++ [Separator]) ++ joinSep segs := by simp
  rw [this]
  exact hasPrefix_append _ _

theorem dropWhile_append_of_all (p : Char → Bool) (a b : Str) (h : ∀ x ∈ a, p x = true) :
    (a ++ b).dropWhile p = b.dropWhile p := by
  induction a with
  | nil => rfl
  | cons c rest ih =>
    have hc := h c (by simp)
    simp only [List.cons_append, List.dropWhile_cons, hc, if_true]
    exact ih (fun x hx => h x (List.mem_cons_of_mem _ hx))

theorem mkdirParent_concat (A s : Str) (hA : A ≠ []) (hs : s ≠ []) (hsep : Separator ∉ s) :
    mkdirParent (A ++ Separator :: s) = some A := by
  unfold mkdirParent
  have hrev : (A ++ Separator :: s).reverse = s.reverse ++ Separator :: A.reverse := by simp
  rw [hrev]
  have h1 : (s.reverse ++ Separator :: A.reverse).dropWhile IsPathSeparator =
      s.reverse ++ Separator :: A.reverse := by
    cases hr : s.reverse with
    | nil => simp at hr; exact absurd hr hs
    | cons c r =>
      have hc : c ∈ s := by
        have : c ∈ s.reverse := by rw [hr]; simp
        simpa using this
      have hcs : IsPathSeparator c = false := by
        have : c ≠ Separator := fun h => hsep (h ▸ hc)
        simp [IsPathSeparator, this]
      simp [List.dropWhile_cons, hcs]
  rw [h1]
  have h2 : (s.reverse ++ Separator :: A.reverse).dropWhile (fun c => !IsPathSeparator c) =
      Separator :: A.reverse := by
    rw [dropWhile_append_of_all]
    · simp [List.dropWhile_cons, IsPathSeparator]
    · intro x hx
      have hx2 : x ∈ s := by simpa using hx
      have : x ≠ Separator := fun h => hsep (h ▸ hx2)
      simp [IsPathSeparator, this]
  rw [h2]
  have hlen : (Separator :: A.reverse).length > 1 := by
    have := List.length_pos.mpr hA
    simp only [List.length_cons, List.length_reverse]; omega
  rw [if_pos hlen]
  simp

theorem mkdirParent_length (path parent : Str) (h : mkdirParent path = some parent) :
    parent.length < path.length := by
  unfold mkdirParent at h
  simp only at h
  split at h
  · rename_i hlen
    simp only [Option.some.injEq] at h
    subst h
    have h1 := length_dropWhile_le (fun c => !IsPathSeparator c)
      (path.reverse.dropWhile IsPathSeparator)
    have h2 := length_dropWhile_le IsPathSeparator path.reverse
    simp only [List.length_reverse, List.length_drop] at h1 h2 ⊢
    omega
  · cases h

/-- `MkdirAll` does not depend on the fuel, once there is more of it than the path is
long: the recursion never stops for lack of it. -/
theorem mkdirAllFuel_enough (n : Nat) :
    ∀ (m : Nat) (fs : FS) (path : Str), path.length < n → path.length < m →
      mkdirAllFuel n fs path = mkdirAllFuel m fs path := by
  induction n with
  | zero => intro m fs path h; exact absurd h (Nat.not_lt_zero _)
  | succ n ih =>
    intro m fs path hn hm
    cases m with
    | zero => exact absurd hm (Nat.not_lt_zero _)
    | succ m =>
      simp only [mkdirAllFuel]
      cases hst : fs.stat path with
      | some k => cases k <;> rfl
      | none =>
        cases hp : mkdirParent path with
        | none => rfl
        | some parent =>
          have hl := mkdirParent_length path parent hp
          simp only
          rw [ih m fs parent (by omega) (by omega)]

theorem Mkdir_some (fs fs1 : FS) (path : Str) (h : Mkdir fs path = some fs1) :
    fs1 = { fs with dirs := path :: fs.dirs } := by
  unfold Mkdir at h
  split at h
  · cases h
  · split at h
    · split at h
      · simpa using h.symm
      · cases h
    · simpa using h.symm

/-- `MkdirAll` below an existing directory `D`: files are untouched, every directory
it makes lies below `D`, and on success the path is a directory. -/
theorem mkdirAllFuel_under (D : Str) (hD : D ≠ []) (segs : List Str) :
    ∀ (fuel : Nat) (fs fs1 : FS), fs.isDir D = true →
      (∀ e ∈ segs, e ≠ [] ∧ Separator ∉ e) → (under D segs).length < fuel →
      mkdirAllFuel fuel fs (under D segs) = some fs1 →
        fs1.files = fs.files ∧ fs1.isDir (under D segs) = true ∧
        (∀ q, q ∈ fs1.dirs → q ∈ fs.dirs ∨ HasPrefix q (D ++ [Separator]) = true) ∧
        (∀ q, q ∈ fs.dirs → q ∈ fs1.dirs) := by
  induction segs using List.reverseRecOn with
  | nil =>
    intro fuel fs fs1 hdir _ hlen h
    rw [under_nil] at h hlen ⊢
    cases fuel with
    | zero => exact absurd hlen (Nat.not_lt_zero _)
    | succ fuel =>
      simp only [mkdirAllFuel, (FS.stat_dir_iff fs D).mpr hdir, Option.some.injEq] at h
      subst h
      exact ⟨rfl, hdir, fun q hq => Or.inl hq, fun q hq => hq⟩
  | append_singleton segs s ih =>
    intro fuel fs fs1 hdir hsegs hlen h
    have hs := hsegs s (by simp)
    have hsegs1 : ∀ e ∈ segs, e ≠ [] ∧ Separator ∉ e :=
      fun e he => hsegs e (by simp [he])
    have hne : under D segs ≠ [] := by
      unfold under
      intro h0
      exact hD (List.append_eq_nil.mp h0).1
    rw [under_concat] at h hlen
    cases fuel with
    | zero => exact absurd hlen (Nat.not_lt_zero _)
    | succ fuel =>
      simp only [mkdirAllFuel] at h
      cases hst : fs.stat (under D segs ++ Separator :: s) with
      | some k =>
        rw [hst] at h
        cases k with
        | dir =>
          simp only [Option.some.injEq] at h
          subst h
          rw [under_concat]
          exact ⟨rfl, (FS.stat_dir_iff _ _).mp hst, fun q hq => Or.inl hq, fun q hq => hq⟩
        | file => cases h
      | none =>
        rw [hst] at h
        simp only [mkdirParent_concat _ s hne hs.1 hs.2] at h
        cases hrec : mkdirAllFuel fuel fs (under D segs) with
        | none => rw [hrec] at h; cases h
        | some fs2 =>
          rw [hrec] at h
          simp only at h
          have hl2 : (under D segs).length < fuel := by
            simp only [List.length_append, List.length_cons] at hlen; omega
          obtain ⟨hf, _, hnew, hold⟩ := ih fuel fs fs2 hdir hsegs1 hl2 hrec
          have hfs1 := Mkdir_some fs2 fs1 _ h
          subst hfs1
          rw [under_concat]
          refine ⟨hf, ?_, ?_, ?_⟩
          · rw [FS.isDir_iff]
            right; right
            simp
          · intro q hq
            simp only [List.mem_cons] at hq
            rcases hq with rfl | hq
            · right
              rw [← under_concat]
              exact hasPrefix_under D _ (by simp)
            · exact hnew q hq
          · intro q hq
            exact List.mem_cons_of_mem _ (hold q hq)

/-! ### Cleaned paths and `Dir` -/

theorem Lex.elems_nosep (rooted : Bool) (s : Lex) (hs : s.Canon rooted) :
    ∀ e ∈ s.elems, e ≠ [] ∧ Separator ∉ e := by
  intro e he
  simp only [Lex.elems, List.mem_append, List.mem_replicate, List.mem_reverse] at he
  rcases he with ⟨_, rfl⟩ | he
  · exact ⟨by simp [dotdot], by decide⟩
  · exact ⟨(hs.2 e he).1, (hs.2 e he).2.1⟩

theorem splitSep_render (rooted : Bool) (s : Lex) (hs : s.Canon rooted) (he : s.elems ≠ []) :
    splitSep (s.render rooted) = (if rooted then [[]] else []) ++ s.elems := by
  have h := splitSep_joinSep s.elems he (fun e hm => (Lex.elems_nosep rooted s hs e hm).2)
  unfold Lex.render
  cases rooted with
  | true =>
    simp only [if_true, List.singleton_append]
    rw [splitSep_cons_sep, h]
  | false =>
    simp only [Bool.false_eq_true, if_false, List.nil_append]
    exact h

theorem isAbs_render (rooted : Bool) (s : Lex) (hs : s.Canon rooted) (he : s.elems ≠ [])
    (t : Str) : IsAbs (s.render rooted ++ t) = rooted := by
  unfold Lex.render
  cases rooted with
  | true => simp [isAbs_cons, IsPathSeparator]
  | false =>
    simp only [Bool.false_eq_true, if_false, List.nil_append]
    cases hel : s.elems with
    | nil => exact absurd hel he
    | cons e rest =>
      have hmem := Lex.elems_nosep false s hs e (by rw [hel]; simp)
      cases e with
      | nil => exact absurd rfl hmem.1
      | cons c e1 =>
        have hc : IsPathSeparator c = false := by
          have : c ≠ Separator := fun hc => hmem.2 (by simp [hc])
          simp [IsPathSeparator, this]
        cases rest with
        | nil => simpa [joinSep, isAbs_cons] using hc
        | cons f fs => simpa [joinSep_cons_cons, isAbs_cons] using hc

theorem lexRun_nil_cons (rooted : Bool) (s : Lex) (es : List Str) :
    lexRun rooted s ([] :: es) = lexRun rooted s es := by
  rw [lexRun_cons, lexStep_nil]

theorem lexOf_render (rooted : Bool) (s : Lex) (hs : s.Canon rooted) (he : s.elems ≠ []) :
    lexOf (s.render rooted) = s := by
  unfold lexOf
  have habs := isAbs_render rooted s hs he []
  rw [List.append_nil] at habs
  rw [habs, splitSep_render rooted s hs he]
  cases rooted with
  | true =>
    simp only [if_true, List.singleton_append]
    rw [lexRun_nil_cons]
    exact lexRun_elems true s hs
  | false =>
    simp only [Bool.false_eq_true, if_false, List.nil_append]
    exact lexRun_elems false s hs

theorem lexOf_render_sep (rooted : Bool) (s : Lex) (hs : s.Canon rooted) (he : s.elems ≠ []) :
    lexOf (s.render rooted ++ [Separator]) = s := by
  have h1 := lexOf_append_sep (s.render rooted) []
    (Lex.render_ne_nil rooted s hs.valid he)
  have habs := isAbs_render rooted s hs he []
  rw [List.append_nil] at habs
  rw [h1, habs, lexOf_render rooted s hs he]
  simp [splitSep, lexRun, lexStep_nil]

/-- A cleaned path is a fixed point of `Clean`. -/
theorem Clean_render (rooted : Bool) (s : Lex) (hs : s.Canon rooted) (he : s.elems ≠ []) :
    Clean (s.render rooted) = s.render rooted := by
  have hl := lexOf_render rooted s hs he
  have habs := isAbs_render rooted s hs he []
  rw [List.append_nil] at habs
  rw [Clean_of_elems_ne_nil _ (by rw [hl]; exact he), hl, habs]

/-- A separator at the end of a cleaned path is dropped by `Clean`. -/
theorem Clean_render_sep (rooted : Bool) (s : Lex) (hs : s.Canon rooted) (he : s.elems ≠ []) :
    Clean (s.render rooted ++ [Separator]) = s.render rooted := by
  have hl := lexOf_render_sep rooted s hs he
  have habs := isAbs_render rooted s hs he [Separator]
  rw [Clean_of_elems_ne_nil _ (by rw [hl]; exact he), hl, habs]

theorem Clean_ne_nil (path : Str) : Clean path ≠ [] := by
  rw [Clean_eq]
  split
  · simp
  · assumption

theorem dirText_concat (A last : Str) (h : Separator ∉ last) :
    ((A ++ Separator :: last).reverse.dropWhile (fun c => !IsPathSeparator c)).reverse =
      A ++ [Separator] := by
  have hrev : (A ++ Separator :: last).reverse = last.reverse ++ Separator :: A.reverse := by simp
  rw [hrev, dropWhile_append_of_all]
  · simp [List.dropWhile_cons, IsPathSeparator]
  · intro x hx
    have hx2 : x ∈ last := by simpa using hx
    have : x ≠ Separator := fun hs => h (hs ▸ hx2)
    simp [IsPathSeparator, this]

theorem dirText_nosep (last : Str) (h : Separator ∉ last) :
    (last.reverse.dropWhile (fun c => !IsPathSeparator c)).reverse = [] := by
  have := dropWhile_append_of_all (fun c => !IsPathSeparator c) last.reverse [] (by
    intro x hx
    have hx2 : x ∈ last := by simpa using hx
    have : x ≠ Separator := fun hs => h (hs ▸ hx2)
    simp [IsPathSeparator, this])
  rw [List.append_nil] at this
  rw [this]
  rfl

theorem Dir_concat (A last : Str) (h : Separator ∉ last) :
    Dir (A ++ Separator :: last) = Clean (A ++ [Separator]) := by
  unfold Dir
  rw [dirText_concat A last h]

/-- A prefix of the elements of a buffer is the elements of a buffer. -/
theorem Lex.elems_initial (rooted : Bool) (s : Lex) (hs : s.Canon rooted) (a b : List Str)
    (h : s.elems = a ++ b) : ∃ s1 : Lex, s1.Canon rooted ∧ s1.elems = a := by
  have ha : a = (s.elems).take a.length := by rw [h]; simp
  refine ⟨⟨min a.length s.ups, ((s.names.reverse).take (a.length - s.ups)).reverse⟩, ⟨?_, ?_⟩, ?_⟩
  · intro hr
    simp [hs.1 hr]
  · intro e he
    simp only [List.mem_reverse] at he
    have := List.mem_of_mem_take he
    exact hs.2 e (by simpa using this)
  · have key : (s.elems).take a.length =
        List.replicate (min a.length s.ups) dotdot ++
          (s.names.reverse).take (a.length - s.ups) := by
      simp only [Lex.elems, List.take_append_eq_append_take, List.take_replicate,
        List.length_replicate]
    simp only [Lex.elems, List.reverse_reverse]
    rw [← key]
    exact ha.symm

/-- A cleaned path cut at one of its separators: the part before the cut is a cleaned
path, the part after it is a list of elements. -/
theorem Lex.render_cut (rooted : Bool) (s : Lex) (hs : s.Canon rooted) (he : s.elems ≠ [])
    (A B : Str) (hA : A ≠ []) (h : s.render rooted = A ++ Separator :: B) :
    ∃ (s0 : Lex) (E1 : List Str), s0.Canon rooted ∧ s0.elems ≠ [] ∧ E1 ≠ [] ∧
      s.elems = s0.elems ++ E1 ∧ A = s0.render rooted ∧ B = joinSep E1 := by
  have hsplit := splitSep_render rooted s hs he
  rw [h, splitSep_append_sep] at hsplit
  have hAj := joinSep_splitSep A
  have hBj := joinSep_splitSep B
  cases rooted with
  | true =>
    simp only [if_true, List.singleton_append] at hsplit
    cases hsa : splitSep A with
    | nil => exact absurd hsa (splitSep_ne_nil A)
    | cons x xs =>
      rw [hsa] at hsplit hAj
      simp only [List.cons_append, List.cons.injEq] at hsplit
      obtain ⟨hx, hes⟩ := hsplit
      subst hx
      have hxs : xs ≠ [] := by
        intro h0
        rw [h0] at hAj
        exact hA hAj.symm
      obtain ⟨s0, hs0, hel0⟩ := Lex.elems_initial true s hs xs (splitSep B) hes.symm
      refine ⟨s0, splitSep B, hs0, by rw [hel0]; exact hxs, splitSep_ne_nil B,
        by rw [hel0]; exact hes.symm, ?_, hBj.symm⟩
      rw [← hAj, joinSep_cons_of_ne_nil _ _ hxs]
      simp [Lex.render, hel0]
  | false =>
    simp only [Bool.false_eq_true, if_false, List.nil_append] at hsplit
    obtain ⟨s0, hs0, hel0⟩ := Lex.elems_initial false s hs (splitSep A) (splitSep B) hsplit.symm
    refine ⟨s0, splitSep B, hs0, by rw [hel0]; exact splitSep_ne_nil A, splitSep_ne_nil B,
      by rw [hel0]; exact hsplit.symm, ?_, hBj.symm⟩
    simp [Lex.render, hel0, hAj]

/-! ### unzip: where it writes -/

/-- An entry that passes the containment check of `unzip` goes to a path made of the
cleaned destination and one or more elements below it, and so does its directory
(with one element less). -/
theorem contained_path (dest name : Str)
    (h : HasPrefix (Join [dest, name]) (Clean dest ++ [Separator]) = true) :
    ∃ segs : List Str, segs ≠ [] ∧ (∀ e ∈ segs, e ≠ [] ∧ Separator ∉ e) ∧
      Join [dest, name] = under (Clean dest) segs ∧
      Dir (Join [dest, name]) = under (Clean dest) segs.dropLast := by
  have hD := Clean_ne_nil dest
  have hpre : ∃ t, Join [dest, name] = Clean dest ++ Separator :: t := by
    unfold HasPrefix at h
    rw [List.isPrefixOf_iff_prefix] at h
    obtain ⟨t, ht⟩ := h
    exact ⟨t, by rw [← ht]; simp⟩
  obtain ⟨t, ht⟩ := hpre
  have hX : ∃ X, Join [dest, name] = Clean X := by
    unfold Join
    cases hd : List.dropWhile (fun e => e.isEmpty) [dest, name] with
    | nil =>
      exfalso
      unfold Join at ht
      rw [hd] at ht
      simp at ht
    | cons e es => exact ⟨_, rfl⟩
  obtain ⟨X, hXeq⟩ := hX
  rw [hXeq] at ht ⊢
  have hlen : 2 ≤ (Clean X).length := by
    have := List.length_pos.mpr hD
    rw [ht]
    simp only [List.length_append, List.length_cons]
    omega
  by_cases hel : (lexOf X).elems = []
  · exfalso
    have := Clean_of_elems_eq_nil X hel
    rw [this] at hlen
    split at hlen <;> simp at hlen
  · have hcanon := lexOf_canon X
    have hclean := Clean_of_elems_ne_nil X hel
    rw [hclean] at ht
    obtain ⟨s0, E1, hs0, hel0, hE1, hsplit, hA, hB⟩ :=
      Lex.render_cut (IsAbs X) (lexOf X) hcanon hel (Clean dest) t hD ht
    have hmem : ∀ e ∈ E1, e ≠ [] ∧ Separator ∉ e := by
      intro e he
      exact Lex.elems_nosep _ _ hcanon e (by rw [hsplit]; simp [he])
    refine ⟨E1, hE1, hmem, ?_, ?_⟩
    · rw [hclean, ht, hB, under_eq_joinSep _ _ hE1]
    · rw [hclean, ht, hB, ← under_eq_joinSep _ _ hE1]
      have hlast := List.dropLast_append_getLast hE1
      have hsep : Separator ∉ E1.getLast hE1 := (hmem _ (List.getLast_mem hE1)).2
      conv_lhs => rw [← hlast, under_concat]
      rw [Dir_concat _ _ hsep]
      have hsplit2 : (lexOf X).elems = (s0.elems ++ E1.dropLast) ++ [E1.getLast hE1] := by
        rw [List.append_assoc, hlast]; exact hsplit
      obtain ⟨s1, hs1, hel1⟩ := Lex.elems_initial _ _ hcanon _ _ hsplit2
      have hne1 : s1.elems ≠ [] := by
        rw [hel1]
        intro h0
        exact hel0 (List.append_eq_nil.mp h0).1
      have hrender : under (Clean dest) E1.dropLast = s1.render (IsAbs X) := by
        by_cases hd : E1.dropLast = []
        · rw [hd, under_nil, hA]
          unfold Lex.render
          rw [hel1, hd, List.append_nil]
        · rw [under_eq_joinSep _ _ hd, hA]
          unfold Lex.render
          rw [hel1, joinSep_append _ _ hel0 hd]
          simp
      rw [hrender]
      exact Clean_render_sep _ s1 hs1 hne1

theorem MkdirAll_under (D : Str) (hD : D ≠ []) (segs : List Str)
    (hsegs : ∀ e ∈ segs, e ≠ [] ∧ Separator ∉ e) (fs fs1 : FS) (hdir : fs.isDir D = true)
    (h : MkdirAll fs (under D segs) = some fs1) :
    FS.agreeOutside (D ++ [Separator]) fs fs1 ∧ fs1.isDir D = true ∧
      fs1.isDir (under D segs) = true ∧ fs1.files = fs.files := by
  obtain ⟨hf, hd, hnew, hold⟩ :=
    mkdirAllFuel_under D hD segs _ fs fs1 hdir hsegs (Nat.lt_succ_self _) h
  refine ⟨?_, ?_, hd, hf⟩
  · intro p hp
    refine ⟨⟨fun hq => ?_, hold p⟩, ?_⟩
    · rcases hnew p hq with h1 | h1
      · exact h1
      · rw [hp] at h1; exact absurd h1 (by decide)
    · unfold FS.read
      rw [hf]
  · rw [FS.isDir_iff] at hdir ⊢
    rcases hdir with h1 | h1 | h1
    · exact Or.inl h1
    · exact Or.inr (Or.inl h1)
    · exact Or.inr (Or.inr (hold D h1))

theorem OpenFile_fs (fs : FS) (name : Str) (flag : Flags) :
    (OpenFile fs name flag).1 = fs ∨ (OpenFile fs name flag).1 = fs.setFile name [] := by
  unfold OpenFile
  split
  · split <;> exact Or.inl rfl
  · split
    · exact Or.inr rfl
    · exact Or.inl rfl
  · split
    · exact Or.inr rfl
    · exact Or.inl rfl

theorem OpenFile_name (fs : FS) (name : Str) (flag : Flags) (f : File)
    (h : (OpenFile fs name flag).2 = some f) : f.name = name := by
  unfold OpenFile at h
  split at h
  · split at h
    · simp only [Option.some.injEq] at h; rw [← h]
    · cases h
  · simp only [Option.some.injEq] at h; rw [← h]
  · split at h
    · simp only [Option.some.injEq] at h; rw [← h]
    · cases h

theorem WriteString_fs (fs : FS) (f : File) (s : Str) :
    WriteString fs (some f) s = fs ∨ ∃ d, WriteString fs (some f) s = fs.setFile f.name d := by
  unfold WriteString
  simp only
  split
  · split
    · exact Or.inr ⟨_, rfl⟩
    · exact Or.inl rfl
  · exact Or.inl rfl

theorem FS.agreeOutside_of_setFile_or (pre : Str) (fs fs1 : FS) (p : Str)
    (hp : HasPrefix p pre = true) (h : fs1 = fs ∨ ∃ d, fs1 = fs.setFile p d) :
    FS.agreeOutside pre fs fs1 ∧ ∀ q, fs1.isDir q = fs.isDir q := by
  rcases h with rfl | ⟨d, rfl⟩
  · exact ⟨FS.agreeOutside_refl _ _, fun _ => rfl⟩
  · exact ⟨FS.agreeOutside_setFile pre fs p d hp, fun q => FS.isDir_setFile fs p d q⟩

/-- One file entry that passed the check: whatever happens, only paths below the
destination change, and the destination stays a directory. -/
theorem extractFile_frame (dest : Str) (f : ZipEntry) (fs : FS)
    (hdir : fs.isDir (Clean dest) = true)
    (hc : HasPrefix (Join [dest, f.Name]) (Clean dest ++ [Separator]) = true) :
    FS.agreeOutside (Clean dest ++ [Separator]) fs
        (extractFile fs (Join [dest, f.Name]) f).state ∧
      (extractFile fs (Join [dest, f.Name]) f).state.isDir (Clean dest) = true := by
  obtain ⟨segs, hne, hsegs, hpath, hdirp⟩ := contained_path dest f.Name hc
  have hD := Clean_ne_nil dest
  unfold extractFile ifErrPanic
  cases hm : MkdirAll fs (Dir (Join [dest, f.Name])) with
  | none => exact ⟨FS.agreeOutside_refl _ _, hdir⟩
  | some fs1 =>
    simp only
    rw [hdirp] at hm
    obtain ⟨ha1, hd1, _, _⟩ := MkdirAll_under (Clean dest) hD segs.dropLast
      (fun e he => hsegs e (List.mem_of_mem_dropLast he)) fs fs1 hdir hm
    have ho := OpenFile_fs fs1 (Join [dest, f.Name]) O_WRONLY_CREATE_TRUNC
    have hon := OpenFile_name fs1 (Join [dest, f.Name]) O_WRONLY_CREATE_TRUNC
    obtain ⟨ha2, hd2⟩ := FS.agreeOutside_of_setFile_or _ fs1 _ (Join [dest, f.Name]) hc
      (ho.imp id (fun h => ⟨[], h⟩))
    cases hopen : OpenFile fs1 (Join [dest, f.Name]) O_WRONLY_CREATE_TRUNC with
    | mk fs2 dstFile =>
      rw [hopen] at ha2 hd2 hon
      simp only at ha2 hd2 hon ⊢
      have h12 := FS.agreeOutside_trans ha1 ha2
      have hdir2 : fs2.isDir (Clean dest) = true := by rw [hd2]; exact hd1
      cases dstFile with
      | none => exact ⟨h12, hdir2⟩
      | some dst =>
        simp only
        have hname := hon dst rfl
        by_cases hof : f.openFails = true
        · simp only [hof, if_true]
          exact ⟨h12, hdir2⟩
        · simp only [hof, Bool.false_eq_true, if_false]
          obtain ⟨ha3, hd3⟩ := FS.agreeOutside_of_setFile_or _ fs2
            (WriteString fs2 (some dst) f.data) (Join [dest, f.Name]) hc
            (by rw [← hname]; exact WriteString_fs fs2 dst f.data)
          have h13 := FS.agreeOutside_trans h12 ha3
          have hdir3 : (WriteString fs2 (some dst) f.data).isDir (Clean dest) = true := by
            rw [hd3]; exact hdir2
          split <;> exact ⟨h13, hdir3⟩

theorem unzipLoop_frame (dest : Str) (entries : List ZipEntry) :
    ∀ fs : FS, fs.isDir (Clean dest) = true →
      FS.agreeOutside (Clean dest ++ [Separator]) fs (unzipLoop dest entries fs).state := by
  induction entries with
  | nil => intro fs _; exact FS.agreeOutside_refl _ _
  | cons f rest ih =>
    intro fs hdir
    rw [unzipLoop]
    by_cases hc : HasPrefix (Join [dest, f.Name]) (Clean dest ++ [Separator]) = true
    · simp only [hc, Bool.not_true, Bool.false_eq_true, if_false]
      by_cases hd : f.IsDir = true
      · simp only [hd, if_true]
        obtain ⟨segs, hne, hsegs, hpath, _⟩ := contained_path dest f.Name hc
        cases hm : MkdirAll fs (Join [dest, f.Name]) with
        | none => exact ih fs hdir
        | some fs1 =>
          rw [hpath] at hm
          obtain ⟨ha1, hd1, _, _⟩ :=
            MkdirAll_under (Clean dest) (Clean_ne_nil dest) segs hsegs fs fs1 hdir hm
          exact FS.agreeOutside_trans ha1 (ih fs1 hd1)
      · simp only [hd, Bool.false_eq_true, if_false]
        obtain ⟨ha, hd2⟩ := extractFile_frame dest f fs hdir hc
        cases he : extractFile fs (Join [dest, f.Name]) f with
        | ret fs1 u =>
          rw [he] at ha hd2
          exact FS.agreeOutside_trans ha (ih fs1 hd2)
        | panic fs1 =>
          rw [he] at ha
          exact ha
    · have hcf : HasPrefix (Join [dest, f.Name]) (Clean dest ++ [Separator]) = false := by
        simpa using hc
      simp only [hcf, Bool.not_false, if_true]
      exact FS.agreeOutside_refl _ _

theorem unzipLoop_stops (dest : Str) (f : ZipEntry) (post : List ZipEntry)
    (hc : HasPrefix (Join [dest, f.Name]) (Clean dest ++ [Separator]) = false)
    (pre : List ZipEntry) :
    ∀ fs : FS, unzipLoop dest (pre ++ f :: post) fs = unzipLoop dest pre fs := by
  induction pre with
  | nil =>
    intro fs
    simp [unzipLoop, hc]
  | cons g rest ih =>
    intro fs
    simp only [List.cons_append, unzipLoop]
    split
    · rfl
    · split
      · exact ih _
      · split
        · exact ih _
        · rfl

/-- C1: when the destination is an existing directory, `unzip` leaves every path that
does not start with `filepath.Clean(dest)` and the separator as it was (no directory
made there, no file created or written), whatever the archive holds and however the
call ends; and at the first entry whose joined path fails the containment check the
loop returns at once: the outcome is that of the entries before it, and neither this
entry nor a later one is written. -/
theorem unzip_writes_only_below_dest (env : Env) (src dest : Str) (w : World)
    (hdest : w.fs.isDir (Clean dest) = true) :
    FS.agreeOutside (Clean dest ++ [Separator]) w.fs (unzip env src dest w).state.fs ∧
    ∀ (pre post : List ZipEntry) (f : ZipEntry) (fs : FS),
      HasPrefix (Join [dest, f.Name]) (Clean dest ++ [Separator]) = false →
        unzipLoop dest (f :: post) fs = Outcome.ret fs () ∧
        unzipLoop dest (pre ++ f :: post) fs = unzipLoop dest pre fs := by
  constructor
  · unfold unzip ifErrPanic
    simp only
    cases hr : (w.fs.read src).bind env.zipOpen with
    | none => exact FS.agreeOutside_refl _ _
    | some archive =>
      simp only
      have h := unzipLoop_frame dest archive w.fs hdest
      cases hu : unzipLoop dest archive w.fs with
      | ret fs1 u => rw [hu] at h; exact h
      | panic fs1 => rw [hu] at h; exact h
  · intro pre post f fs hc
    exact ⟨unzipLoop_stops dest f post hc [] fs, unzipLoop_stops dest f post hc pre fs⟩

/-- C1 on an archive with the entries `ok.txt`, `../../etc/passwd`, `later.txt`,
extracted to `/tmp`: `/etc/passwd` keeps its content, `ok.txt` is written, and
`later.txt` is not. -/
theorem unzip_writes_only_below_dest_witness :
    (unzip slipEnv "/tmp/a.zip".toList "/tmp".toList slipWorld).state.fs.read
        "/etc/passwd".toList = some "root".toList ∧
    (unzip slipEnv "/tmp/a.zip".toList "/tmp".toList slipWorld).state.fs.read
        "/tmp/ok.txt".toList = some "hi".toList ∧
    (unzip slipEnv "/tmp/a.zip".toList "/tmp".toList slipWorld).state.fs.read
        "/tmp/later.txt".toList = none :=
  ⟨((unzip_writes_only_below_dest slipEnv "/tmp/a.zip".toList "/tmp".toList slipWorld
      (by decide)).1 "/etc/passwd".toList (by decide)).2,
    by decide, by decide⟩

/-- C7 fails for directory entries: in `blockedFS` the directory of the entry `a`
cannot be made (a regular file is in the way), yet `unzip` does not panic and goes
on to write the next entry, `b.txt`. -/
theorem unzip_dir_entry_error_not_fatal :
    HasPrefix (Join ["/d".toList, "a".toList]) (Clean "/d".toList ++ [Separator]) = true ∧
    MkdirAll blockedFS (Join ["/d".toList, "a".toList]) = none ∧
    (unzipLoop "/d".toList blockedArchive blockedFS).panicked = false ∧
    (unzipLoop "/d".toList blockedArchive blockedFS).state.read "/d/b.txt".toList =
      some "x".toList := by
  decide

/-- C7, amended: for an entry that passed the containment check, an error at any of the
four steps of a file entry (parent directories, destination file, opening the entry,
copying) makes `unzip` panic in the state reached, and the entries after it play no
part in the outcome; an error making the directory of a directory entry is dropped
and the loop goes on with the next entry. -/
theorem unzip_file_entry_errors_are_fatal (dest : Str) (f : ZipEntry) (rest : List ZipEntry)
    (fs : FS) (hc : HasPrefix (Join [dest, f.Name]) (Clean dest ++ [Separator]) = true) :
    (f.IsDir = false → MkdirAll fs (Dir (Join [dest, f.Name])) = none →
      unzipLoop dest (f :: rest) fs = Outcome.panic fs) ∧
    (f.IsDir = false → ∀ fs1, MkdirAll fs (Dir (Join [dest, f.Name])) = some fs1 →
      ((OpenFile fs1 (Join [dest, f.Name]) O_WRONLY_CREATE_TRUNC).2 = none →
        unzipLoop dest (f :: rest) fs =
          Outcome.panic (OpenFile fs1 (Join [dest, f.Name]) O_WRONLY_CREATE_TRUNC).1) ∧
      (∀ dst, (OpenFile fs1 (Join [dest, f.Name]) O_WRONLY_CREATE_TRUNC).2 = some dst →
        (f.openFails = true →
          unzipLoop dest (f :: rest) fs =
            Outcome.panic (OpenFile fs1 (Join [dest, f.Name]) O_WRONLY_CREATE_TRUNC).1) ∧
        (f.openFails = false → f.copyFails = true →
          unzipLoop dest (f :: rest) fs =
            Outcome.panic (WriteString
              (OpenFile fs1 (Join [dest, f.Name]) O_WRONLY_CREATE_TRUNC).1 (some dst)
              f.data)))) ∧
    (f.IsDir = true → MkdirAll fs (Join [dest, f.Name]) = none →
      unzipLoop dest (f :: rest) fs = unzipLoop dest rest fs) := by
  have hloop : unzipLoop dest (f :: rest) fs =
      if f.IsDir then unzipLoop dest rest ((MkdirAll fs (Join [dest, f.Name])).getD fs)
      else match extractFile fs (Join [dest, f.Name]) f with
        | Outcome.ret fs1 _ => unzipLoop dest rest fs1
        | Outcome.panic fs1 => Outcome.panic fs1 := by
    rw [unzipLoop]
    simp only [hc, Bool.not_true, Bool.false_eq_true, if_false]
  refine ⟨?_, ?_, ?_⟩
  · intro hd hm
    rw [hloop]
    simp [hd, extractFile, ifErrPanic, hm]
  · intro hd fs1 hm
    refine ⟨?_, ?_⟩
    · intro ho
      rw [hloop]
      simp only [hd, Bool.false_eq_true, if_false, extractFile, ifErrPanic, hm]
      cases hopen : OpenFile fs1 (Join [dest, f.Name]) O_WRONLY_CREATE_TRUNC with
      | mk fs2 dstFile =>
        rw [hopen] at ho
        simp only at ho
        subst ho
        rfl
    · intro dst ho
      cases hopen : OpenFile fs1 (Join [dest, f.Name]) O_WRONLY_CREATE_TRUNC with
      | mk fs2 dstFile =>
        rw [hopen] at ho
        simp only at ho
        subst ho
        refine ⟨?_, ?_⟩
        · intro hof
          rw [hloop]
          simp [hd, extractFile, ifErrPanic, hm, hopen, hof]
        · intro hof hcf
          rw [hloop]
          simp [hd, extractFile, ifErrPanic, hm, hopen, hof, hcf]
  · intro hd hm
    rw [hloop]
    simp [hd, hm]

/-- C7, amended, in `blockedFS`: the file entry `a/c.txt` cannot get its parent
directory and the call panics with nothing changed, whatever follows; the directory
entry `a` fails as well and the loop goes on. -/
theorem unzip_file_entry_errors_are_fatal_witness :
    unzipLoop "/d".toList (blockedFileEntry :: blockedArchive) blockedFS =
        Outcome.panic blockedFS ∧
    unzipLoop "/d".toList blockedArchive blockedFS =
        unzipLoop "/d".toList blockedArchive.tail blockedFS :=
  ⟨(unzip_file_entry_errors_are_fatal "/d".toList blockedFileEntry blockedArchive blockedFS
      (by decide)).1 (by decide) (by decide),
   (unzip_file_entry_errors_are_fatal "/d".toList ⟨"a".toList, true, false, [], false⟩
      blockedArchive.tail blockedFS (by decide)).2.2 (by decide) (by decide)⟩

/-- C10: for a destination whose cleaned form is neither the root nor `.`, and a name
made of one or more ordinary segments joined by `/`, `filepath.Join(dest, name)` is
the cleaned destination, a separator and the name; so it passes the containment check
and `unzip` goes on to extract the entry instead of returning. -/
theorem containment_check_accepts_ordinary_names (dest : Str) (segs : List Str)
    (hne : segs ≠ []) (hseg : ∀ e ∈ segs, Ordinary e)
    (hroot : Clean dest ≠ [Separator]) (hdot : Clean dest ≠ ['.']) :
    Join [dest, joinSep segs] = Clean dest ++ Separator :: joinSep segs ∧
    HasPrefix (Join [dest, joinSep segs]) (Clean dest ++ [Separator]) = true ∧
    ∀ (f : ZipEntry) (rest : List ZipEntry) (fs : FS), f.Name = joinSep segs →
      unzipLoop dest (f :: rest) fs =
        if f.IsDir then unzipLoop dest rest ((MkdirAll fs (Join [dest, f.Name])).getD fs)
        else match extractFile fs (Join [dest, f.Name]) f with
          | Outcome.ret fs1 _ => unzipLoop dest rest fs1
          | Outcome.panic fs1 => Outcome.panic fs1 := by
  have hj : Join [dest, joinSep segs] = Clean dest ++ Separator :: joinSep segs := by
    rw [Join_two dest segs hne hseg, joinBase_of_clean dest hroot hdot]
    simp
  have hp : HasPrefix (Join [dest, joinSep segs]) (Clean dest ++ [Separator]) = true := by
    rw [hj]
    have : Clean dest ++ Separator :: joinSep segs =
        (Clean dest ++ [Separator]) ++ joinSep segs := by simp
    rw [this]
    exact hasPrefix_append _ _
  refine ⟨hj, hp, ?_⟩
  intro f rest fs hname
  rw [unzipLoop, hname]
  simp only [hp, Bool.not_true, Bool.false_eq_true, if_false]

/-- C10 for the destination `/tmp` and the name `gradle-8.3/bin/gradle`. -/
theorem containment_check_accepts_ordinary_names_witness :
    Join ["/tmp".toList, "gradle-8.3/bin/gradle".toList] = "/tmp/gradle-8.3/bin/gradle".toList ∧
    HasPrefix (Join ["/tmp".toList, "gradle-8.3/bin/gradle".toList])
      (Clean "/tmp".toList ++ [Separator]) = true :=
  ⟨(containment_check_accepts_ordinary_names "/tmp".toList
      ["gradle-8.3".toList, "bin".toList, "gradle".toList]
      (by decide) (by decide) (by decide) (by decide)).1,
   (containment_check_accepts_ordinary_names "/tmp".toList
      ["gradle-8.3".toList, "bin".toList, "gradle".toList]
      (by decide) (by decide) (by decide) (by decide)).2.1⟩

/-! ### downloadGradle -/

theorem OpenFile_none_fs (fs : FS) (name : Str) (flag : Flags)
    (h : (OpenFile fs name flag).2 = none) : (OpenFile fs name flag).1 = fs := by
  unfold OpenFile at h ⊢
  split
  · split <;> rfl
  · rename_i hst
    rw [hst] at h
    simp at h
  · rename_i hst
    rw [hst] at h
    simp only at h
    split
    · rename_i hc
      rw [if_pos hc] at h
      cases h
    · rfl

theorem OpenFile_rdonly (fs : FS) (name : Str) :
    (OpenFile fs name O_RDONLY).1 = fs ∧
      ((OpenFile fs name O_RDONLY).2 = none ↔ fs.stat name = none) := by
  unfold OpenFile
  cases hst : fs.stat name with
  | none => simp [O_RDONLY]
  | some k => cases k <;> simp [O_RDONLY]

theorem unzip_log (env : Env) (src dest : Str) (w : World) :
    (unzip env src dest w).state.log = w.log ++ [Effect.unzip src dest] := by
  unfold unzip ifErrPanic
  simp only
  cases (w.fs.read src).bind env.zipOpen with
  | none => rfl
  | some archive =>
    simp only
    cases unzipLoop dest archive w.fs <;> rfl

/-- C6: when the cache archive exists, `downloadGradle` returns the path of the
executable and the world is as before: no HTTP request and no extraction is added to
the record and the filesystem is unchanged; a second call does the same and returns
the same path, which is `<tempdir>/gradle-8.3/bin/gradle` (for a temporary directory
other than the root and `.`). -/
theorem downloadGradle_cached (env : Env) (w : World)
    (hcache : (w.fs.stat (Join [env.tempDir, "gradle.zip".toList])).isSome = true) :
    downloadGradle env w =
      Outcome.ret w (Join [env.tempDir, "gradle-8.3".toList, "bin".toList, "gradle".toList]) ∧
    downloadGradle env (downloadGradle env w).state = downloadGradle env w ∧
    (Clean env.tempDir ≠ [Separator] → Clean env.tempDir ≠ ['.'] →
      Join [env.tempDir, "gradle-8.3".toList, "bin".toList, "gradle".toList] =
        Clean env.tempDir ++ "/gradle-8.3/bin/gradle".toList) := by
  have h1 : downloadGradle env w =
      Outcome.ret w (Join [env.tempDir, "gradle-8.3".toList, "bin".toList, "gradle".toList]) := by
    have hro := OpenFile_rdonly w.fs (Join [env.tempDir, "gradle.zip".toList])
    unfold downloadGradle
    simp only
    cases hopen : OpenFile w.fs (Join [env.tempDir, "gradle.zip".toList]) O_RDONLY with
    | mk fs1 file =>
      rw [hopen] at hro
      cases file with
      | some f => rfl
      | none =>
        exfalso
        have := hro.2.mp rfl
        rw [this] at hcache
        cases hcache
  refine ⟨h1, ?_, ?_⟩
  · rw [h1]
    exact h1
  · intro hroot hdot
    rw [Join_cons env.tempDir ["gradle-8.3".toList, "bin".toList, "gradle".toList]
        (by decide) (by decide),
      Join_two env.tempDir ["gradle-8.3".toList, "bin".toList, "gradle".toList]
        (by decide) (by decide),
      joinBase_of_clean env.tempDir hroot hdot]
    simp [joinSep, Separator]

/-- C6 in a world that holds `/tmp/gradle.zip`: the call returns
`/tmp/gradle-8.3/bin/gradle`, nothing is requested or extracted, twice over. -/
theorem downloadGradle_cached_witness :
    downloadGradle lossyEnv cachedWorld =
      Outcome.ret cachedWorld "/tmp/gradle-8.3/bin/gradle".toList ∧
    downloadGradle lossyEnv (downloadGradle lossyEnv cachedWorld).state =
      downloadGradle lossyEnv cachedWorld :=
  ⟨(downloadGradle_cached lossyEnv cachedWorld (by decide)).1,
   (downloadGradle_cached lossyEnv cachedWorld (by decide)).2.1⟩

/-- C5 fails for the copy: with the cache archive absent, the archive file created and
the GET answered, the body of `lossyEnv` ends with a read error; `downloadGradle`
does not panic, it extracts what was written and returns the executable path. -/
theorem downloadGradle_copy_error_not_fatal :
    freshWorld.fs.stat (Join [lossyEnv.tempDir, "gradle.zip".toList]) = none ∧
    (lossyEnv.httpGet gradleUrl).map Response.readFails = some true ∧
    (downloadGradle lossyEnv freshWorld).panicked = false ∧
    (downloadGradle lossyEnv freshWorld).state.log =
      [Effect.httpGet gradleUrl, Effect.unzip "/tmp/gradle.zip".toList "/tmp".toList] ∧
    (downloadGradle lossyEnv freshWorld).state.fs.read "/tmp/gradle-8.3/bin/gradle".toList =
      some "#!/bin/sh".toList ∧
    (∃ w1, downloadGradle lossyEnv freshWorld =
      Outcome.ret w1 "/tmp/gradle-8.3/bin/gradle".toList) := by
  refine ⟨by decide, by decide, by decide, by decide, by decide, ?_⟩
  exact ⟨(downloadGradle lossyEnv freshWorld).state, by decide⟩

/-- C5, amended: with the cache archive absent, a failure to create the archive file
makes `downloadGradle` panic before any request, and a failure of the HTTP GET makes
it panic before any extraction; once the GET has answered, the bytes the body
delivered are written and the archive is extracted, whether or not reading the body
ended with an error. -/
theorem downloadGradle_create_and_get_errors_are_fatal (env : Env) (w : World)
    (habsent : w.fs.stat (Join [env.tempDir, "gradle.zip".toList]) = none) :
    ((OpenFile w.fs (Join [env.tempDir, "gradle.zip".toList]) O_RDWR_CREATE_TRUNC).2 = none →
      downloadGradle env w = Outcome.panic w) ∧
    (∀ out, (OpenFile w.fs (Join [env.tempDir, "gradle.zip".toList]) O_RDWR_CREATE_TRUNC).2 =
        some out →
      (env.httpGet gradleUrl = none →
        downloadGradle env w = Outcome.panic
          { fs := (OpenFile w.fs (Join [env.tempDir, "gradle.zip".toList])
              O_RDWR_CREATE_TRUNC).1,
            log := w.log ++ [Effect.httpGet gradleUrl] }) ∧
      (∀ resp, env.httpGet gradleUrl = some resp →
        (downloadGradle env w).state.log =
          w.log ++ [Effect.httpGet gradleUrl,
            Effect.unzip (Join [env.tempDir, "gradle.zip".toList]) env.tempDir] ∧
        downloadGradle env w =
          match unzip env (Join [env.tempDir, "gradle.zip".toList]) env.tempDir
            { fs := WriteString (OpenFile w.fs (Join [env.tempDir, "gradle.zip".toList])
                O_RDWR_CREATE_TRUNC).1 (some out) resp.body,
              log := w.log ++ [Effect.httpGet gradleUrl] } with
          | Outcome.ret w3 _ => Outcome.ret w3
              (Join [env.tempDir, "gradle-8.3".toList, "bin".toList, "gradle".toList])
          | Outcome.panic w3 => Outcome.panic w3)) := by
  have hro := OpenFile_rdonly w.fs (Join [env.tempDir, "gradle.zip".toList])
  have hnone := hro.2.mpr habsent
  have hdl : downloadGradle env w =
      match OpenFile w.fs (Join [env.tempDir, "gradle.zip".toList]) O_RDWR_CREATE_TRUNC with
      | (fs1, out) =>
        ifErrPanic { w with fs := fs1 } out fun out =>
          ifErrPanic { fs := fs1, log := w.log ++ [Effect.httpGet gradleUrl] }
            (env.httpGet gradleUrl) fun resp =>
            match unzip env (Join [env.tempDir, "gradle.zip".toList]) env.tempDir
              { fs := WriteString fs1 (some out) resp.body,
                log := w.log ++ [Effect.httpGet gradleUrl] } with
            | Outcome.ret w3 _ => Outcome.ret w3
                (Join [env.tempDir, "gradle-8.3".toList, "bin".toList, "gradle".toList])
            | Outcome.panic w3 => Outcome.panic w3 := by
    unfold downloadGradle
    simp only
    cases hopen : OpenFile w.fs (Join [env.tempDir, "gradle.zip".toList]) O_RDONLY with
    | mk fs0 file =>
      rw [hopen] at hnone
      simp only at hnone
      subst hnone
      rfl
  constructor
  · intro hc
    have hfs := OpenFile_none_fs _ _ _ hc
    rw [hdl]
    cases hopen : OpenFile w.fs (Join [env.tempDir, "gradle.zip".toList])
        O_RDWR_CREATE_TRUNC with
    | mk fs1 out =>
      rw [hopen] at hc hfs
      simp only at hc hfs
      subst hc
      subst hfs
      rfl
  · intro out ho
    cases hopen : OpenFile w.fs (Join [env.tempDir, "gradle.zip".toList])
        O_RDWR_CREATE_TRUNC with
    | mk fs1 out1 =>
      rw [hopen] at ho
      simp only at ho
      subst ho
      constructor
      · intro hget
        rw [hdl, hopen]
        simp only [ifErrPanic, hget]
      · intro resp hget
        have heq : downloadGradle env w =
            match unzip env (Join [env.tempDir, "gradle.zip".toList]) env.tempDir
              { fs := WriteString fs1 (some out) resp.body,
                log := w.log ++ [Effect.httpGet gradleUrl] } with
            | Outcome.ret w3 _ => Outcome.ret w3
                (Join [env.tempDir, "gradle-8.3".toList, "bin".toList, "gradle".toList])
            | Outcome.panic w3 => Outcome.panic w3 := by
          rw [hdl, hopen]
          simp only [ifErrPanic, hget]
        refine ⟨?_, heq⟩
        rw [heq]
        have hlog := unzip_log env (Join [env.tempDir, "gradle.zip".toList]) env.tempDir
          { fs := WriteString fs1 (some out) resp.body,
            log := w.log ++ [Effect.httpGet gradleUrl] }
        cases hu : unzip env (Join [env.tempDir, "gradle.zip".toList]) env.tempDir
            { fs := WriteString fs1 (some out) resp.body,
              log := w.log ++ [Effect.httpGet gradleUrl] } with
        | ret w3 u =>
          rw [hu] at hlog
          simpa [Outcome.state] using hlog
        | panic w3 =>
          rw [hu] at hlog
          simpa [Outcome.state] using hlog

/-- C5, amended, at concrete worlds: without `/tmp` the archive file cannot be created
and the call panics with the world unchanged; in an empty `/tmp`, with the body of
`lossyEnv`, the request and the extraction are both recorded. -/
theorem downloadGradle_create_and_get_errors_are_fatal_witness :
    downloadGradle lossyEnv noTmpWorld = Outcome.panic noTmpWorld ∧
    (downloadGradle lossyEnv freshWorld).state.log =
      freshWorld.log ++ [Effect.httpGet gradleUrl,
        Effect.unzip (Join [lossyEnv.tempDir, "gradle.zip".toList]) lossyEnv.tempDir] :=
  ⟨(downloadGradle_create_and_get_errors_are_fatal lossyEnv noTmpWorld (by decide)).1
      (by decide),
   (((downloadGradle_create_and_get_errors_are_fatal lossyEnv freshWorld (by decide)).2
      ⟨"/tmp/gradle.zip".toList, true, false⟩ (by decide)).2
      ⟨"PK".toList, true⟩ (by decide)).1⟩

/-! ### fmt.Sprintf and the build script -/

theorem Sprintf_cons_ne (c : Char) (rest : Str) (args : List Str) (h : c ≠ '%') :
    Sprintf (c :: rest) args = c :: Sprintf rest args := by
  rw [Sprintf.eq_def]
  simp [h]

theorem Sprintf_seg (l rest : Str) (args : List Str) (h : '%' ∉ l) :
    Sprintf (l ++ rest) args = l ++ Sprintf rest args := by
  induction l with
  | nil => rfl
  | cons c l1 ih =>
    have hc : c ≠ '%' := fun hc => h (by simp [hc])
    rw [List.cons_append, Sprintf_cons_ne c _ args hc,
      ih (fun hm => h (List.mem_cons_of_mem _ hm))]
    rfl

theorem Sprintf_flatten (lines : List Str) (rest : Str) (args : List Str)
    (h : ∀ l ∈ lines, '%' ∉ l) :
    Sprintf (lines.flatten ++ rest) args = lines.flatten ++ Sprintf rest args := by
  apply Sprintf_seg
  intro hm
  rw [List.mem_flatten] at hm
  obtain ⟨l, hl, hc⟩ := hm
  exact h l hl hc

theorem Sprintf_verb (rest a : Str) (args : List Str) :
    Sprintf ("%s".toList ++ rest) (a :: args) = a ++ Sprintf rest args := by
  show Sprintf ('%' :: 's' :: rest) (a :: args) = a ++ Sprintf rest args
  rw [Sprintf.eq_def]
  simp

theorem Sprintf_nil : Sprintf [] [] = [] := rfl

/-- The build script is the template with its four verbs replaced by the four
operands, in the order of the operands. -/
theorem Sprintf_buildTemplate (a b c d : Str) :
    Sprintf buildTemplate [a, b, c, d] = scriptWith a b c d := by
  unfold buildTemplate scriptWith
  rw [Sprintf_flatten buildHead _ _ (by decide), Sprintf_verb,
    Sprintf_flatten buildMid1 _ _ (by decide), Sprintf_verb,
    Sprintf_flatten buildMid2 _ _ (by decide), Sprintf_verb,
    Sprintf_flatten buildMid3 _ _ (by decide), Sprintf_verb]
  have ht := Sprintf_flatten buildTail [] [] (by decide)
  rw [List.append_nil, Sprintf_nil, List.append_nil] at ht
  rw [ht]

theorem buildScript_eq (p w b v : Str) :
    buildScript p w b v =
      scriptWith (ToSlash ((Rel p w).getD [])) (ToSlash ((Rel p b).getD []))
        (ToSlash ((Rel p b).getD [])) v := by
  unfold buildScript
  exact Sprintf_buildTemplate _ _ _ _

/-! ### kirokInit: the files it opens and writes -/

theorem Join_two_render (dest : Str) (segs : List Str) (hne : segs ≠ [])
    (h : ∀ e ∈ segs, Ordinary e) :
    Join [dest, joinSep segs] =
        Lex.render (IsAbs dest) ⟨(lexOf dest).ups, segs.reverse ++ (lexOf dest).names⟩ ∧
      Lex.Canon (IsAbs dest) ⟨(lexOf dest).ups, segs.reverse ++ (lexOf dest).names⟩ ∧
      Lex.elems ⟨(lexOf dest).ups, segs.reverse ++ (lexOf dest).names⟩ ≠ [] := by
  have hc := lexOf_canon dest
  refine ⟨?_, ⟨hc.1, ?_⟩, ?_⟩
  · rw [Join_two dest segs hne h, Lex.render_push_many _ _ segs hne]
    unfold joinBase
    simp
  · intro e he
    simp only [List.mem_append, List.mem_reverse] at he
    rcases he with he | he
    · exact h e he
    · exact hc.2 e he
  · simp [Lex.elems, hne]

theorem Clean_Join_sep (dest : Str) (segs : List Str) (hne : segs ≠ [])
    (h : ∀ e ∈ segs, Ordinary e) :
    Clean (Join [dest, joinSep segs] ++ [Separator]) = Join [dest, joinSep segs] := by
  obtain ⟨hj, hc, he⟩ := Join_two_render dest segs hne h
  rw [hj]
  exact Clean_render_sep _ _ hc he

/-- `Dir` of a path joined from two or more ordinary segments drops the last one. -/
theorem Dir_Join_more (dest : Str) (segs : List Str) (last : Str) (hne : segs ≠ [])
    (h : ∀ e ∈ segs, Ordinary e) (hl : Ordinary last) :
    Dir (Join [dest, joinSep (segs ++ [last])]) = Join [dest, joinSep segs] := by
  have hall : ∀ e ∈ segs ++ [last], Ordinary e := by
    intro e he
    simp only [List.mem_append, List.mem_singleton] at he
    rcases he with he | rfl
    · exact h e he
    · exact hl
  rw [Join_two dest _ (by simp) hall, joinSep_concat segs last hne]
  have : joinBase dest ++ (joinSep segs ++ Separator :: last) =
      (joinBase dest ++ joinSep segs) ++ Separator :: last := by simp
  rw [this, Dir_concat _ _ hl.2.1, ← Join_two dest segs hne h]
  exact Clean_Join_sep dest segs hne h

/-- `Dir` of a path joined from one ordinary segment is the cleaned first part. -/
theorem Dir_Join_one (dest last : Str) (hl : Ordinary last) :
    Dir (Join [dest, last]) = Clean dest := by
  have hj := Join_two dest [last] (by simp) (by simpa using hl)
  simp only [joinSep] at hj
  rw [hj]
  unfold joinBase
  by_cases he : (lexOf dest).elems = []
  · rw [if_pos he, List.append_nil, Lex.render_empty _ _ he, Clean_of_elems_eq_nil dest he]
    cases IsAbs dest with
    | true =>
      simp only [if_true]
      have : [Separator] ++ last = [] ++ Separator :: last := rfl
      rw [this, Dir_concat _ _ hl.2.1]
      decide
    | false =>
      simp only [Bool.false_eq_true, if_false, List.nil_append]
      unfold Dir
      rw [dirText_nosep last hl.2.1]
      rfl
  · rw [if_neg he]
    have : Lex.render (IsAbs dest) (lexOf dest) ++ [Separator] ++ last =
        Lex.render (IsAbs dest) (lexOf dest) ++ Separator :: last := by simp
    rw [this, Dir_concat _ _ hl.2.1,
      Clean_render_sep _ _ (lexOf_canon dest) he, Clean_of_elems_ne_nil dest he]

theorem FS.isDir_false_iff (fs : FS) (p : Str) :
    fs.isDir p = false ↔ ¬ (p = [Separator] ∨ p = ['.'] ∨ p ∈ fs.dirs) := by
  rw [← FS.isDir_iff]
  simp

theorem FS.stat_of_file (fs : FS) (p c : Str) (hd : fs.isDir p = false)
    (hr : fs.read p = some c) : fs.stat p = some FileKind.file := by
  have h1 := (FS.isDir_false_iff fs p).mp hd
  unfold FS.read at hr
  unfold FS.stat
  rw [if_neg h1, hr]
  rfl

theorem FS.stat_none_iff (fs : FS) (p : Str) :
    fs.stat p = none ↔ fs.isDir p = false ∧ fs.read p = none := by
  unfold FS.isDir FS.read FS.stat
  by_cases h1 : p = [Separator] ∨ p = ['.'] ∨ p ∈ fs.dirs
  · simp [h1]
  · simp only [h1, if_false]
    cases List.lookup p fs.files <;> simp

theorem WriteString_dirs (fs : FS) (file : Option File) (s : Str) :
    (WriteString fs file s).dirs = fs.dirs := by
  unfold WriteString
  split
  · rfl
  · split
    · split <;> rfl
    · rfl

theorem OpenFile_dirs (fs : FS) (name : Str) (flag : Flags) :
    (OpenFile fs name flag).1.dirs = fs.dirs := by
  rcases OpenFile_fs fs name flag with h | h <;> rw [h]
  rfl

theorem writeTo_dirs (fs : FS) (name : Str) (flag : Flags) (s : Str) :
    (writeTo fs name flag s).dirs = fs.dirs := by
  unfold writeTo
  rw [WriteString_dirs, OpenFile_dirs]

theorem FS.isDir_congr (fs fs1 : FS) (h : fs1.dirs = fs.dirs) (q : Str) :
    fs1.isDir q = fs.isDir q := by
  rw [Bool.eq_iff_iff, FS.isDir_iff, FS.isDir_iff, h]

theorem writeTo_isDir (fs : FS) (name : Str) (flag : Flags) (s q : Str) :
    (writeTo fs name flag s).isDir q = fs.isDir q :=
  FS.isDir_congr _ _ (writeTo_dirs fs name flag s) q

/-- Opening and writing one file leaves every other file as it was. -/
theorem writeTo_read_other (fs : FS) (name : Str) (flag : Flags) (s q : Str) (h : q ≠ name) :
    (writeTo fs name flag s).read q = fs.read q := by
  unfold writeTo
  have h1 : (OpenFile fs name flag).1.read q = fs.read q := by
    rcases OpenFile_fs fs name flag with h2 | h2 <;> rw [h2]
    rw [FS.read_setFile, if_neg h]
  cases hf : (OpenFile fs name flag).2 with
  | none => exact h1
  | some f =>
    have hn := OpenFile_name fs name flag f hf
    rcases WriteString_fs (OpenFile fs name flag).1 f s with h2 | ⟨d, h2⟩
    · rw [h2]; exact h1
    · rw [h2, FS.read_setFile, hn, if_neg h]; exact h1

/-- With `O_APPEND|O_WRONLY` an existing file gets the text at its end. -/
theorem writeTo_append (fs : FS) (name c s : Str) (hd : fs.isDir name = false)
    (hr : fs.read name = some c) :
    (writeTo fs name O_APPEND_WRONLY s).read name = some (c ++ s) := by
  have hst := FS.stat_of_file fs name c hd hr
  unfold writeTo OpenFile
  rw [hst]
  simp [O_APPEND_WRONLY, WriteString, hr, FS.read_setFile]

/-- With `O_APPEND|O_WRONLY` and no `O_CREATE` a missing file stays missing. -/
theorem writeTo_append_absent (fs : FS) (name s : Str) (hst : fs.stat name = none) :
    writeTo fs name O_APPEND_WRONLY s = fs := by
  unfold writeTo OpenFile
  rw [hst]
  simp [O_APPEND_WRONLY, WriteString]

/-- With `O_CREATE|O_WRONLY` and no `O_TRUNC` the text overwrites the start of an
existing file, and what that file holds beyond the length of the text stays. -/
theorem writeTo_create_existing (fs : FS) (name old s : Str) (hd : fs.isDir name = false)
    (hr : fs.read name = some old) :
    (writeTo fs name O_CREATE_WRONLY s).read name = some (s ++ old.drop s.length) := by
  have hst := FS.stat_of_file fs name old hd hr
  unfold writeTo OpenFile
  rw [hst]
  simp [O_CREATE_WRONLY, WriteString, hr, FS.read_setFile]

/-- With `O_CREATE|O_WRONLY` a missing file in an existing directory is created with
the text as its content. -/
theorem writeTo_create_absent (fs : FS) (name s : Str) (hst : fs.stat name = none)
    (hp : fs.isDir (Dir name) = true) :
    (writeTo fs name O_CREATE_WRONLY s).read name = some s := by
  unfold writeTo OpenFile
  rw [hst]
  simp [O_CREATE_WRONLY, WriteString, hp, FS.read_setFile]

theorem writeTo_create (fs : FS) (name s : Str) (hd : fs.isDir name = false)
    (hp : fs.isDir (Dir name) = true) :
    ∃ tail, (writeTo fs name O_CREATE_WRONLY s).read name = some (s ++ tail) := by
  cases hr : fs.read name with
  | none =>
    exact ⟨[], by
      rw [List.append_nil]
      exact writeTo_create_absent fs name s ((FS.stat_none_iff fs name).mpr ⟨hd, hr⟩) hp⟩
  | some old => exact ⟨_, writeTo_create_existing fs name old s hd hr⟩

theorem mkdirParent_initial (path parent : Str) (h : mkdirParent path = some parent) :
    parent <+: path := by
  unfold mkdirParent at h
  simp only at h
  split at h
  · simp only [Option.some.injEq] at h
    subst h
    rw [← List.reverse_suffix, List.reverse_reverse]
    exact (List.drop_suffix 1 _).trans
      ((List.dropWhile_suffix _).trans (List.dropWhile_suffix _))
  · cases h

/-- `MkdirAll` touches no file, makes the path a directory when it succeeds, keeps the
directories there were, and makes directories only at prefixes of the path. -/
theorem mkdirAllFuel_spec (n : Nat) :
    ∀ (fs fs1 : FS) (path : Str), mkdirAllFuel n fs path = some fs1 →
      fs1.files = fs.files ∧ fs1.isDir path = true ∧
      (∀ q, q ∈ fs.dirs → q ∈ fs1.dirs) ∧
      (∀ q, q ∈ fs1.dirs → q ∈ fs.dirs ∨ q <+: path) := by
  induction n with
  | zero => intro fs fs1 path h; cases h
  | succ n ih =>
    intro fs fs1 path h
    simp only [mkdirAllFuel] at h
    cases hst : fs.stat path with
    | some k =>
      rw [hst] at h
      cases k with
      | dir =>
        simp only [Option.some.injEq] at h
        subst h
        exact ⟨rfl, (FS.stat_dir_iff _ _).mp hst, fun q hq => hq, fun q hq => Or.inl hq⟩
      | file => cases h
    | none =>
      rw [hst] at h
      simp only at h
      have hmk : ∀ fs2 : FS, Mkdir fs2 path = some fs1 →
          fs1.files = fs2.files ∧ fs1.isDir path = true ∧
          (∀ q, q ∈ fs2.dirs → q ∈ fs1.dirs) ∧
          (∀ q, q ∈ fs1.dirs → q ∈ fs2.dirs ∨ q = path) := by
        intro fs2 h2
        have := Mkdir_some fs2 fs1 path h2
        subst this
        refine ⟨rfl, ?_, fun q hq => List.mem_cons_of_mem _ hq, ?_⟩
        · rw [FS.isDir_iff]; right; right; simp
        · intro q hq
          simp only [List.mem_cons] at hq
          rcases hq with rfl | hq
          · exact Or.inr rfl
          · exact Or.inl hq
      cases hp : mkdirParent path with
      | none =>
        rw [hp] at h
        obtain ⟨h1, h2, h3, h4⟩ := hmk fs h
        refine ⟨h1, h2, h3, fun q hq => ?_⟩
        rcases h4 q hq with h5 | h5
        · exact Or.inl h5
        · exact Or.inr (h5 ▸ List.prefix_refl _)
      | some parent =>
        rw [hp] at h
        simp only at h
        cases hrec : mkdirAllFuel n fs parent with
        | none => rw [hrec] at h; cases h
        | some fs2 =>
          rw [hrec] at h
          simp only at h
          obtain ⟨r1, _, r3, r4⟩ := ih fs fs2 parent hrec
          obtain ⟨h1, h2, h3, h4⟩ := hmk fs2 h
          refine ⟨h1.trans r1, h2, fun q hq => h3 q (r3 q hq), fun q hq => ?_⟩
          rcases h4 q hq with h5 | h5
          · rcases r4 q h5 with h6 | h6
            · exact Or.inl h6
            · exact Or.inr (h6.trans (mkdirParent_initial path parent hp))
          · exact Or.inr (h5 ▸ List.prefix_refl _)

/-- `kirokInit` as three open-and-write steps around the `MkdirAll`. -/
theorem kirokInit_eq (fs : FS) (p w b v : Str) :
    kirokInit fs p w b v =
      ifErrPanic
        (writeTo (writeTo fs (settingsPath p) O_APPEND_WRONLY settingsBlock) (buildPath p)
          O_CREATE_WRONLY (buildScript p w b v))
        (MkdirAll
          (writeTo (writeTo fs (settingsPath p) O_APPEND_WRONLY settingsBlock) (buildPath p)
            O_CREATE_WRONLY (buildScript p w b v))
          (srcDir p))
        (fun fs5 => Outcome.ret (writeTo fs5 (samplePath p) O_CREATE_WRONLY sampleSource) ()) :=
  rfl

theorem kirokPaths_eq (p : Str) :
    settingsPath p = joinBase p ++ "settings.gradle.kts".toList ∧
    buildPath p = joinBase p ++ "build.gradle.kts".toList ∧
    srcDir p = joinBase p ++ "src/commonMain/kotlin".toList ∧
    samplePath p = joinBase p ++ "src/commonMain/kotlin/Sample.kt".toList := by
  refine ⟨?_, ?_, ?_, ?_⟩
  · have := Join_two p ["settings.gradle.kts".toList] (by decide) (by decide)
    simpa [joinSep] using this
  · have := Join_two p ["build.gradle.kts".toList] (by decide) (by decide)
    simpa [joinSep] using this
  · unfold srcDir
    rw [Join_cons p _ (by decide) (by decide), Join_two p _ (by decide) (by decide)]
    congr 1
  · unfold samplePath
    rw [Join_cons p _ (by decide) (by decide), Join_two p _ (by decide) (by decide)]
    congr 1

/-- The paths of `kirokInit` are different from one another, the two files that lie
in the project directory and below `src` are no prefixes of the `src` directory, and
`Dir` gives the directories they lie in. -/
theorem kirokPaths (p : Str) :
    settingsPath p ≠ buildPath p ∧ settingsPath p ≠ samplePath p ∧
    buildPath p ≠ samplePath p ∧
    ¬ settingsPath p <+: srcDir p ∧ ¬ buildPath p <+: srcDir p ∧
    ¬ samplePath p <+: srcDir p ∧
    Dir (buildPath p) = Clean p ∧ Dir (samplePath p) = srcDir p := by
  obtain ⟨hs, hb, hd, hk⟩ := kirokPaths_eq p
  refine ⟨?_, ?_, ?_, ?_, ?_, ?_, ?_, ?_⟩
  · rw [hs, hb]
    intro h
    exact absurd (List.append_cancel_left h) (by decide)
  · rw [hs, hk]
    intro h
    exact absurd (List.append_cancel_left h) (by decide)
  · rw [hb, hk]
    intro h
    exact absurd (List.append_cancel_left h) (by decide)
  · rw [hs, hd, List.prefix_append_right_inj]
    decide
  · rw [hb, hd, List.prefix_append_right_inj]
    decide
  · rw [hk, hd, List.prefix_append_right_inj]
    decide
  · exact Dir_Join_one p _ (by decide)
  · unfold samplePath srcDir
    rw [Join_cons p _ (by decide) (by decide),
      Join_cons p ["src".toList, "commonMain".toList, "kotlin".toList] (by decide) (by decide)]
    exact Dir_Join_more p ["src".toList, "commonMain".toList, "kotlin".toList]
      "Sample.kt".toList (by decide) (by decide) (by decide)

/-- The state in which `kirokInit` ends: that after the second write when `MkdirAll`
fails, and else the one after the third write. -/
theorem kirokInit_state (fs : FS) (p w b v : Str) :
    (MkdirAll (writeTo (writeTo fs (settingsPath p) O_APPEND_WRONLY settingsBlock)
        (buildPath p) O_CREATE_WRONLY (buildScript p w b v)) (srcDir p) = none ∧
      kirokInit fs p w b v =
        Outcome.panic (writeTo (writeTo fs (settingsPath p) O_APPEND_WRONLY settingsBlock)
          (buildPath p) O_CREATE_WRONLY (buildScript p w b v))) ∨
    ∃ fs5, MkdirAll (writeTo (writeTo fs (settingsPath p) O_APPEND_WRONLY settingsBlock)
        (buildPath p) O_CREATE_WRONLY (buildScript p w b v)) (srcDir p) = some fs5 ∧
      kirokInit fs p w b v =
        Outcome.ret (writeTo fs5 (samplePath p) O_CREATE_WRONLY sampleSource) () := by
  rw [kirokInit_eq]
  cases hm : MkdirAll (writeTo (writeTo fs (settingsPath p) O_APPEND_WRONLY settingsBlock)
      (buildPath p) O_CREATE_WRONLY (buildScript p w b v)) (srcDir p) with
  | none => exact Or.inl ⟨rfl, rfl⟩
  | some fs5 => exact Or.inr ⟨fs5, rfl, rfl⟩

/-- What `kirokInit` leaves at a path other than `Sample.kt` is what the first two
writes left there. -/
theorem kirokInit_read (fs : FS) (p w b v q : Str) (hq : q ≠ samplePath p) :
    (kirokInit fs p w b v).state.read q =
      (writeTo (writeTo fs (settingsPath p) O_APPEND_WRONLY settingsBlock)
        (buildPath p) O_CREATE_WRONLY (buildScript p w b v)).read q := by
  rcases kirokInit_state fs p w b v with ⟨_, h⟩ | ⟨fs5, hm, h⟩
  · rw [h]; rfl
  · rw [h]
    have hf := (mkdirAllFuel_spec _ _ fs5 _ hm).1
    show (writeTo fs5 (samplePath p) O_CREATE_WRONLY sampleSource).read q = _
    rw [writeTo_read_other _ _ _ _ q hq]
    unfold FS.read
    rw [hf]

/-- The build script file after `kirokInit`: the script, followed by what the file
held before beyond the length of the script. -/
theorem kirokInit_build_read (fs : FS) (p w b v : Str) (hd : fs.isDir (buildPath p) = false)
    (hp : fs.isDir (Clean p) = true ∨ fs.read (buildPath p) ≠ none) :
    (kirokInit fs p w b v).state.read (buildPath p) =
      some (buildScript p w b v ++
        ((fs.read (buildPath p)).getD []).drop (buildScript p w b v).length) := by
  obtain ⟨h1, _, h3, _, _, _, hdirB, _⟩ := kirokPaths p
  rw [kirokInit_read fs p w b v _ h3]
  have hd2 : (writeTo fs (settingsPath p) O_APPEND_WRONLY settingsBlock).isDir (buildPath p) =
      false := by rw [writeTo_isDir]; exact hd
  have hr2 : (writeTo fs (settingsPath p) O_APPEND_WRONLY settingsBlock).read (buildPath p) =
      fs.read (buildPath p) := writeTo_read_other _ _ _ _ _ (Ne.symm h1)
  cases hr : fs.read (buildPath p) with
  | some old =>
    rw [hr] at hr2
    rw [writeTo_create_existing _ _ old _ hd2 hr2]
    rfl
  | none =>
    rw [hr] at hr2 hp
    have hpd : fs.isDir (Clean p) = true := by
      rcases hp with h | h
      · exact h
      · exact absurd rfl h
    rw [writeTo_create_absent _ _ _ ((FS.stat_none_iff _ _).mpr ⟨hd2, hr2⟩)
      (by rw [writeTo_isDir, hdirB]; exact hpd)]
    simp

/-- C2 (the code departs from it): for the project `/p`, the wasm directory `/w`, the
binding directory `/b` and the version `1.1.0`, the build script that `kirokInit`
writes has `../w` (the wasm directory) as the version of the kirok plugin, `../b`
(the binding directory) as `wasmDir` and as `wasmJsDir`, and `1.1.0` (the version) as
`bindingDir`; it is not the script with the version, the wasm directory and the
binding directory each in its own field. -/
theorem kirokInit_build_fields_shifted :
    (kirokInit emptyProjectFS "/p".toList "/w".toList "/b".toList "1.1.0".toList).state.read
        "/p/build.gradle.kts".toList =
      some (scriptWith "../w".toList "../b".toList "../b".toList "1.1.0".toList) ∧
    (∀ wasmJsDir : Str,
      scriptWith "../w".toList "../b".toList "../b".toList "1.1.0".toList ≠
        scriptWith "1.1.0".toList "../w".toList wasmJsDir "../b".toList) := by
  constructor
  · have hB : buildPath "/p".toList = "/p/build.gradle.kts".toList := by decide
    have h := kirokInit_build_read emptyProjectFS "/p".toList "/w".toList "/b".toList
      "1.1.0".toList (by rw [hB]; decide) (Or.inl (by decide))
    rw [hB] at h
    have hr : emptyProjectFS.read "/p/build.gradle.kts".toList = none := by decide
    rw [hr] at h
    simp only [Option.getD_none, List.drop_nil, List.append_nil] at h
    rw [h, buildScript_eq]
    have hw : ToSlash ((Rel "/p".toList "/w".toList).getD []) = "../w".toList := by decide
    have hb : ToSlash ((Rel "/p".toList "/b".toList).getD []) = "../b".toList := by decide
    rw [hw, hb]
  · intro js h
    unfold scriptWith at h
    have h2 := List.append_cancel_left h
    have h3 := congrArg List.head? h2
    simp at h3

/-- C4 (the code departs from it): in `staleFS` the file `build.gradle.kts` holds the
script followed by the line `// mine`; after `kirokInit` it still ends in that line:
the file was not truncated. -/
theorem kirokInit_build_not_truncated :
    staleFS.read "/p/build.gradle.kts".toList =
      some (buildScript "/p".toList "/w".toList "/b".toList "1.1.0".toList ++
        "// mine\n".toList) ∧
    (kirokInit staleFS "/p".toList "/w".toList "/b".toList "1.1.0".toList).state.read
        "/p/build.gradle.kts".toList =
      some (buildScript "/p".toList "/w".toList "/b".toList "1.1.0".toList ++
        "// mine\n".toList) ∧
    (kirokInit staleFS "/p".toList "/w".toList "/b".toList "1.1.0".toList).state.read
        "/p/build.gradle.kts".toList ≠
      some (buildScript "/p".toList "/w".toList "/b".toList "1.1.0".toList) := by
  have hB : buildPath "/p".toList = "/p/build.gradle.kts".toList := by decide
  have hr : staleFS.read "/p/build.gradle.kts".toList =
      some (buildScript "/p".toList "/w".toList "/b".toList "1.1.0".toList ++
        "// mine\n".toList) := by
    unfold staleFS FS.read
    rw [List.lookup_cons]
    simp
  have hd : staleFS.isDir "/p/build.gradle.kts".toList = false := by
    rw [FS.isDir_false_iff]
    decide
  have h := kirokInit_build_read staleFS "/p".toList "/w".toList "/b".toList
    "1.1.0".toList (by rw [hB]; exact hd) (Or.inl (by rw [FS.isDir_iff]; decide))
  rw [hB, hr] at h
  simp only [Option.getD_some, List.drop_left] at h
  refine ⟨hr, h, ?_⟩
  rw [h]
  intro h2
  simp at h2

/-- C9: a `settings.gradle.kts` that exists with content `c` holds `c` followed by the
`pluginManagement` block after `kirokInit`, whatever the directories and the version
and however the call ends; a `settings.gradle.kts` that does not exist is not created,
and `kirokInit` still writes the build script (into an existing project directory)
and, when it returns, the sample source file. -/
theorem kirokInit_appends_to_settings (fs : FS) (p w b v : Str) :
    (∀ c, fs.isDir (settingsPath p) = false → fs.read (settingsPath p) = some c →
      (kirokInit fs p w b v).state.read (settingsPath p) = some (c ++ settingsBlock)) ∧
    (fs.stat (settingsPath p) = none →
      (kirokInit fs p w b v).state.stat (settingsPath p) = none ∧
      (fs.isDir (Clean p) = true → fs.isDir (buildPath p) = false →
        ∃ tail, (kirokInit fs p w b v).state.read (buildPath p) =
          some (buildScript p w b v ++ tail)) ∧
      (∀ fs1, kirokInit fs p w b v = Outcome.ret fs1 () →
        fs.isDir (samplePath p) = false →
        ∃ tail, fs1.read (samplePath p) = some (sampleSource ++ tail))) := by
  obtain ⟨h1, h2, h3, h4, _, h6, hdirB, hdirK⟩ := kirokPaths p
  constructor
  · intro c hd hr
    rw [kirokInit_read fs p w b v _ h2, writeTo_read_other _ _ _ _ _ h1]
    exact writeTo_append fs _ c _ hd hr
  · intro habs
    have hfs2 := writeTo_append_absent fs (settingsPath p) settingsBlock habs
    obtain ⟨hnd, hnr⟩ := (FS.stat_none_iff _ _).mp habs
    refine ⟨?_, ?_, ?_⟩
    · rw [FS.stat_none_iff]
      constructor
      · have hnot := (FS.isDir_false_iff _ _).mp hnd
        rcases kirokInit_state fs p w b v with ⟨_, h⟩ | ⟨fs5, hm, h⟩
        · rw [h]
          show (writeTo _ _ _ _).isDir _ = false
          rw [writeTo_isDir, writeTo_isDir]
          exact hnd
        · rw [h]
          show (writeTo fs5 _ _ _).isDir _ = false
          rw [writeTo_isDir, FS.isDir_false_iff]
          intro hc
          apply hnot
          rcases hc with hc | hc | hc
          · exact Or.inl hc
          · exact Or.inr (Or.inl hc)
          · rcases (mkdirAllFuel_spec _ _ fs5 _ hm).2.2.2 _ hc with h7 | h7
            · rw [writeTo_dirs, writeTo_dirs] at h7
              exact Or.inr (Or.inr h7)
            · exact absurd h7 h4
      · rw [kirokInit_read fs p w b v _ h2, writeTo_read_other _ _ _ _ _ h1, hfs2]
        exact hnr
    · intro hp hd
      rw [kirokInit_build_read fs p w b v hd (Or.inl hp)]
      exact ⟨_, rfl⟩
    · intro fs1 hret hd
      rcases kirokInit_state fs p w b v with ⟨_, h⟩ | ⟨fs5, hm, h⟩
      · rw [h] at hret
        cases hret
      · rw [h] at hret
        simp only [Outcome.ret.injEq, and_true] at hret
        subst hret
        obtain ⟨_, hisd, _, hnew⟩ := mkdirAllFuel_spec _ _ fs5 _ hm
        have hnot := (FS.isDir_false_iff _ _).mp hd
        have hd5 : fs5.isDir (samplePath p) = false := by
          rw [FS.isDir_false_iff]
          intro hc
          apply hnot
          rcases hc with hc | hc | hc
          · exact Or.inl hc
          · exact Or.inr (Or.inl hc)
          · rcases hnew _ hc with h7 | h7
            · rw [writeTo_dirs, writeTo_dirs] at h7
              exact Or.inr (Or.inr h7)
            · exact absurd h7 h6
        exact writeTo_create fs5 (samplePath p) sampleSource hd5 (by rw [hdirK]; exact hisd)

/-- C9 in `settingsFS`, where the bootstrapper wrote `rootProject.name = "demo"`: the
line is kept and the block follows it; and in `emptyProjectFS`, where there is no
settings file: none is made, the build script and the sample source are written. -/
theorem kirokInit_appends_to_settings_witness :
    (kirokInit settingsFS "/p".toList "/w".toList "/b".toList "1.1.0".toList).state.read
        (settingsPath "/p".toList) =
      some ("rootProject.name = \"demo\"\n".toList ++ settingsBlock) ∧
    (kirokInit emptyProjectFS "/p".toList "/w".toList "/b".toList "1.1.0".toList).state.stat
        (settingsPath "/p".toList) = none ∧
    (∃ tail,
      (kirokInit emptyProjectFS "/p".toList "/w".toList "/b".toList "1.1.0".toList).state.read
          (buildPath "/p".toList) =
        some (buildScript "/p".toList "/w".toList "/b".toList "1.1.0".toList ++ tail)) :=
  ⟨(kirokInit_appends_to_settings settingsFS "/p".toList "/w".toList "/b".toList
      "1.1.0".toList).1 "rootProject.name = \"demo\"\n".toList (by decide) (by decide),
   ((kirokInit_appends_to_settings emptyProjectFS "/p".toList "/w".toList "/b".toList
      "1.1.0".toList).2 (by decide)).1,
   ((kirokInit_appends_to_settings emptyProjectFS "/p".toList "/w".toList "/b".toList
      "1.1.0".toList).2 (by decide)).2.1 (by decide) (by decide)⟩

/-! ### filepath.Rel between absolute paths -/

theorem ToSlash_eq (path : Str) : ToSlash path = path := by
  unfold ToSlash
  rw [if_pos (by decide)]

/-- The cleaned form of an absolute path: the root followed by its names. -/
theorem Clean_abs (path : Str) (h : IsAbs path = true) :
    Clean path = Separator :: joinSep (lexOf path).names.reverse ∧ (lexOf path).ups = 0 ∧
      (∀ e ∈ (lexOf path).names.reverse, Ordinary e) := by
  have hc := lexOf_canon path
  rw [h] at hc
  have hu := hc.1 rfl
  have hel : (lexOf path).elems = (lexOf path).names.reverse := by
    simp [Lex.elems, hu]
  refine ⟨?_, hu, fun e he => hc.2 e (by simpa using he)⟩
  rw [Clean_eq, h]
  have hr : (lexOf path).render true = Separator :: joinSep (lexOf path).names.reverse := by
    unfold Lex.render
    rw [hel]
    rfl
  rw [hr]
  simp

theorem filter_nonempty_id (es : List Str) (h : ∀ e ∈ es, e ≠ []) :
    es.filter (fun e => !e.isEmpty) = es := by
  rw [List.filter_eq_self]
  intro e he
  have := h e he
  cases e with
  | nil => exact absurd rfl this
  | cons c r => rfl

theorem components_abs (path : Str) (h : IsAbs path = true) :
    components path = (lexOf path).names.reverse := by
  obtain ⟨hc, _, hord⟩ := Clean_abs path h
  unfold components
  rw [hc, splitSep_cons_sep]
  by_cases hn : (lexOf path).names.reverse = []
  · rw [hn]
    rfl
  · rw [splitSep_joinSep _ hn (fun e he => (hord e he).2.1)]
    simp only [List.filter_cons, List.isEmpty_nil, Bool.not_true, Bool.false_eq_true, if_false]
    exact filter_nonempty_id _ (fun e he => (hord e he).1)

theorem takeWhile_joinSep (b : Str) (rest : List Str) (hb : Separator ∉ b) :
    (joinSep (b :: rest)).takeWhile (fun c => c != Separator) = b ∧
    ((joinSep (b :: rest)).dropWhile (fun c => c != Separator)).drop 1 = joinSep rest := by
  have hall : ∀ x ∈ b, (fun c => c != Separator) x = true := by
    intro x hx
    have : x ≠ Separator := fun h => hb (h ▸ hx)
    simpa using this
  cases rest with
  | nil =>
    simp only [joinSep]
    constructor
    · rw [List.takeWhile_eq_self_iff]
      exact hall
    · have := dropWhile_append_of_all (fun c => c != Separator) b [] hall
      rw [List.append_nil] at this
      rw [this]
      rfl
  | cons f fs =>
    rw [joinSep_cons_cons]
    constructor
    · rw [List.takeWhile_append_of_pos hall]
      simp [List.takeWhile_cons]
    · rw [dropWhile_append_of_all _ _ _ hall]
      simp [List.dropWhile_cons]

theorem commonLen_le_left (B : List Str) : ∀ T : List Str, commonLen B T ≤ B.length := by
  induction B with
  | nil => intro T; simp [commonLen]
  | cons b B1 ih =>
    intro T
    cases T with
    | nil => simp [commonLen]
    | cons t T1 =>
      simp only [commonLen, List.length_cons]
      split
      · have := ih T1; omega
      · omega

theorem commonLen_take (B : List Str) :
    ∀ T : List Str, B.take (commonLen B T) = T.take (commonLen B T) := by
  induction B with
  | nil => intro T; simp [commonLen]
  | cons b B1 ih =>
    intro T
    cases T with
    | nil => simp [commonLen]
    | cons t T1 =>
      simp only [commonLen]
      split
      · rename_i h
        subst h
        simp [ih T1]
      · simp

/-- The loop of `Rel` on two lists of names: it stops behind their common leading
names, with the first name of the base that differs (when both lists go on). -/
theorem relLoop_joinSep (B : List Str) :
    ∀ (T : List Str) (fuel : Nat), (∀ e ∈ B, e ≠ [] ∧ Separator ∉ e) →
      (∀ e ∈ T, e ≠ [] ∧ Separator ∉ e) → (joinSep B).length < fuel →
      relLoop fuel (joinSep B) (joinSep T) =
        (if commonLen B T < B.length ∧ commonLen B T < T.length
            then (B.drop (commonLen B T)).headD [] else [],
          joinSep (B.drop (commonLen B T)), joinSep (T.drop (commonLen B T))) := by
  induction B with
  | nil =>
    intro T fuel _ _ hlen
    cases fuel with
    | zero => exact absurd hlen (Nat.not_lt_zero _)
    | succ fuel => simp [relLoop, joinSep, commonLen]
  | cons b B1 ih =>
    intro T fuel hB hT hlen
    cases fuel with
    | zero => exact absurd hlen (Nat.not_lt_zero _)
    | succ fuel =>
      have hb := hB b (by simp)
      have hB1 : ∀ e ∈ B1, e ≠ [] ∧ Separator ∉ e := fun e he => hB e (List.mem_cons_of_mem _ he)
      have hjb : joinSep (b :: B1) ≠ [] := joinSep_ne_nil _ (by simp) (fun e he => (hB e he).1)
      cases T with
      | nil => simp [relLoop, joinSep, commonLen]
      | cons t T1 =>
        have ht := hT t (by simp)
        have hT1 : ∀ e ∈ T1, e ≠ [] ∧ Separator ∉ e :=
          fun e he => hT e (List.mem_cons_of_mem _ he)
        have hjt : joinSep (t :: T1) ≠ [] := joinSep_ne_nil _ (by simp) (fun e he => (hT e he).1)
        obtain ⟨hb1, hb2⟩ := takeWhile_joinSep b B1 hb.2
        obtain ⟨ht1, ht2⟩ := takeWhile_joinSep t T1 ht.2
        rw [relLoop]
        simp only [hjb, hjt, ne_eq, not_false_eq_true, and_self, if_true, hb1, hb2, ht1, ht2]
        by_cases hbt : b = t
        · subst hbt
          have hl : (joinSep B1).length < fuel := by
            have h1 : (joinSep (b :: B1)).length ≥ (joinSep B1).length + 1 := by
              cases B1 with
              | nil =>
                have := List.length_pos.mpr hb.1
                simp only [joinSep, List.length_nil]
                omega
              | cons f fs =>
                rw [joinSep_cons_cons]
                simp only [List.length_append, List.length_cons]
                omega
            omega
          simp only [not_true_eq_false, if_false]
          rw [ih T1 fuel hB1 hT1 hl]
          simp [commonLen]
        · have hbt2 : ¬ t = b := fun h => hbt h.symm
          simp [hbt2, commonLen, hbt]

theorem commonLen_self (B : List Str) : commonLen B B = B.length := by
  induction B with
  | nil => rfl
  | cons b B1 ih => simp [commonLen, ih]

theorem count_sep_joinSep (es : List Str) (hne : es ≠ []) (h : ∀ e ∈ es, Separator ∉ e) :
    (joinSep es).count Separator = es.length - 1 := by
  induction es with
  | nil => exact absurd rfl hne
  | cons e rest ih =>
    have he : e.count Separator = 0 := List.count_eq_zero.mpr (h e (by simp))
    cases rest with
    | nil => simpa [joinSep] using he
    | cons f fs =>
      have := ih (by simp) (fun x hx => h x (List.mem_cons_of_mem _ hx))
      rw [joinSep_cons_cons, List.count_append, he, List.count_cons_self, this]
      simp

theorem ups_eq_joinSep (n : Nat) :
    ['.', '.'] ++ (List.replicate n [Separator, '.', '.']).flatten =
      joinSep (List.replicate (n + 1) dotdot) := by
  induction n with
  | zero => rfl
  | succ n ih =>
    rw [List.replicate_succ (n := n + 1), joinSep_cons_of_ne_nil _ _ (by simp [List.replicate_succ]),
      ← ih, List.replicate_succ, List.flatten_cons]
    rfl

/-- `Rel` between two absolute paths on different branches: one `..` for every name of
the base below the common ancestor, then the names of the target below it. -/
theorem Rel_abs (project target : Str) (hp : IsAbs project = true) (ht : IsAbs target = true)
    (hb1 : commonLen (components project) (components target) < (components project).length)
    (hb2 : commonLen (components project) (components target) < (components target).length) :
    Rel project target = some (joinSep
      (List.replicate ((components project).length -
          commonLen (components project) (components target)) dotdot ++
        (components target).drop (commonLen (components project) (components target)))) := by
  obtain ⟨hcp, _, hop⟩ := Clean_abs project hp
  obtain ⟨hct, _, hot⟩ := Clean_abs target ht
  rw [components_abs project hp, components_abs target ht] at hb1 hb2 ⊢
  generalize (lexOf project).names.reverse = P at hcp hop hb1 hb2 ⊢
  generalize (lexOf target).names.reverse = T at hct hot hb1 hb2 ⊢
  have hP : ∀ e ∈ P, e ≠ [] ∧ Separator ∉ e := fun e he => ⟨(hop e he).1, (hop e he).2.1⟩
  have hT : ∀ e ∈ T, e ≠ [] ∧ Separator ∉ e := fun e he => ⟨(hot e he).1, (hot e he).2.1⟩
  have hPne : P ≠ [] := by intro h; rw [h] at hb1; simp at hb1
  have hTne : T ≠ [] := by intro h; rw [h] at hb2; simp at hb2
  have hne : T ≠ P := by
    intro h
    rw [h, commonLen_self] at hb1
    exact Nat.lt_irrefl _ hb1
  have hneq : ¬ (Separator :: joinSep T = Separator :: joinSep P) := by
    intro h
    simp only [List.cons.injEq, true_and] at h
    have h2 := congrArg splitSep h
    rw [splitSep_joinSep T hTne (fun e he => (hT e he).2),
      splitSep_joinSep P hPne (fun e he => (hP e he).2)] at h2
    exact hne h2
  have hloop : relLoop ((Separator :: joinSep P).length + 1) (Separator :: joinSep P)
      (Separator :: joinSep T) = relLoop ((Separator :: joinSep P).length)
        (joinSep P) (joinSep T) := by
    rw [relLoop]
    simp [List.takeWhile_cons, List.dropWhile_cons]
  have hdrop : P.drop (commonLen P T) ≠ [] := by
    intro h
    have := congrArg List.length h
    simp only [List.length_drop, List.length_nil] at this
    omega
  have hdropT : T.drop (commonLen P T) ≠ [] := by
    intro h
    have := congrArg List.length h
    simp only [List.length_drop, List.length_nil] at this
    omega
  have hhead : (P.drop (commonLen P T)).headD [] ≠ ['.', '.'] := by
    cases hd : P.drop (commonLen P T) with
    | nil => exact absurd hd hdrop
    | cons x xs =>
      have hx : x ∈ P := List.mem_of_mem_drop (by rw [hd]; simp)
      simpa using (hop x hx).2.2.2
  have hjd : joinSep (P.drop (commonLen P T)) ≠ [] :=
    joinSep_ne_nil _ hdrop (fun e he => (hP e (List.mem_of_mem_drop he)).1)
  have hjt : joinSep (T.drop (commonLen P T)) ≠ [] :=
    joinSep_ne_nil _ hdropT (fun e he => (hT e (List.mem_of_mem_drop he)).1)
  have hcount := count_sep_joinSep (P.drop (commonLen P T)) hdrop
    (fun e he => (hP e (List.mem_of_mem_drop he)).2)
  have hups := ups_eq_joinSep ((P.drop (commonLen P T)).length - 1)
  have hlen1 : (P.drop (commonLen P T)).length - 1 + 1 = P.length - commonLen P T := by
    simp only [List.length_drop]; omega
  rw [hlen1] at hups
  unfold Rel
  simp only [hcp, hct]
  rw [if_neg hneq]
  have hdot : ¬ (Separator :: joinSep P = ['.']) := by
    intro h
    simp only [List.cons.injEq] at h
    exact absurd h.1 (by decide)
  simp only [hdot, if_false, List.head?_cons, bne_self_eq_false, Bool.false_eq_true]
  rw [hloop, relLoop_joinSep P T _ hP hT (by simp)]
  simp only [hb1, hb2, and_self, if_true]
  rw [if_neg hhead, if_pos hjd, if_pos hjt, hcount, hups,
    joinSep_append _ _ (by simp; omega) hdropT]

theorem lexRun_pops (A : List Str) :
    ∀ rest : List Str,
      lexRun true ⟨0, A ++ rest⟩ (List.replicate A.length dotdot) = ⟨0, rest⟩ := by
  induction A with
  | nil => intro rest; rfl
  | cons a A1 ih =>
    intro rest
    have hstep : lexStep true ⟨0, (a :: A1) ++ rest⟩ dotdot = ⟨0, A1 ++ rest⟩ := by
      simp [lexStep, dotdot]
    rw [List.length_cons, List.replicate_succ, lexRun_cons, hstep]
    exact ih rest

theorem lexRun_names_mem (rooted : Bool) (es : List Str) :
    ∀ (s : Lex) (e : Str), e ∈ (lexRun rooted s es).names → e ∈ s.names ∨ e ∈ es := by
  induction es with
  | nil => intro s e he; exact Or.inl he
  | cons x rest ih =>
    intro s e he
    rw [lexRun_cons] at he
    rcases ih _ e he with h | h
    · unfold lexStep at h
      split at h
      · exact Or.inl h
      · split at h
        · cases hn : s.names with
          | nil =>
            rw [hn] at h
            cases rooted <;> simp [hn] at h
          | cons top below =>
            rw [hn] at h
            exact Or.inl (List.mem_cons_of_mem _ h)
        · simp only [List.mem_cons] at h
          rcases h with rfl | h
          · exact Or.inr (by simp)
          · exact Or.inl h
    · exact Or.inr (List.mem_cons_of_mem _ h)

theorem splitSep_mem_chars (p : Str) : ∀ e ∈ splitSep p, ∀ c ∈ e, c ∈ p := by
  induction p with
  | nil => simp [splitSep]
  | cons d rest ih =>
    by_cases hd : d = Separator
    · subst hd
      rw [splitSep_cons_sep]
      intro e he c hc
      simp only [List.mem_cons] at he
      rcases he with rfl | he
      · simp at hc
      · exact List.mem_cons_of_mem _ (ih e he c hc)
    · rw [splitSep_cons_ne d rest hd]
      cases hs : splitSep rest with
      | nil => exact absurd hs (splitSep_ne_nil rest)
      | cons x xs =>
        rw [hs] at ih
        intro e he c hc
        simp only [List.headD_cons, List.tail_cons, List.mem_cons] at he
        rcases he with rfl | he
        · simp only [List.mem_cons] at hc
          rcases hc with rfl | hc
          · simp
          · exact List.mem_cons_of_mem _ (ih x (by simp) c hc)
        · exact List.mem_cons_of_mem _ (ih e (List.mem_cons_of_mem _ he) c hc)

theorem joinSep_mem_chars (es : List Str) (c : Char) (h : c ∈ joinSep es) :
    c = Separator ∨ ∃ e ∈ es, c ∈ e := by
  induction es with
  | nil => simp [joinSep] at h
  | cons e rest ih =>
    cases rest with
    | nil => exact Or.inr ⟨e, by simp, by simpa [joinSep] using h⟩
    | cons f fs =>
      rw [joinSep_cons_cons] at h
      simp only [List.mem_append, List.mem_cons] at h
      rcases h with h | h | h
      · exact Or.inr ⟨e, by simp, h⟩
      · exact Or.inl h
      · rcases ih h with h2 | ⟨x, hx, hc⟩
        · exact Or.inl h2
        · exact Or.inr ⟨x, List.mem_cons_of_mem _ hx, hc⟩

/-- C8 fails on a host whose separator is `/` when a directory name holds a backslash:
`ToSlash` leaves the path as it is, so for the project `/p` and the target `/w\x`
(on different branches below the root) the relative path is `../w\x`. -/
theorem rel_keeps_backslash :
    IsAbs "/p".toList = true ∧ IsAbs backslashTarget = true ∧
    commonLen (components "/p".toList) (components backslashTarget) <
      (components "/p".toList).length ∧
    commonLen (components "/p".toList) (components backslashTarget) <
      (components backslashTarget).length ∧
    (Rel "/p".toList backslashTarget).map ToSlash = some ['.', '.', '/', 'w', backslash, 'x'] ∧
    backslash ∈ ToSlash ((Rel "/p".toList backslashTarget).getD []) := by
  decide

/-- C8, amended: for an absolute project directory and an absolute target directory
on a different branch of the tree (each has a name below their common ancestor),
`filepath.Rel` succeeds, and the relative path that `kirokInit` puts into the build
script is made of one `..` for every name of the project directory below the common
ancestor, followed by the names of the target below it; joined onto the project
directory it gives the cleaned target; and it holds no backslash when the target
holds none. -/
theorem rel_between_branches (project target : Str)
    (hp : IsAbs project = true) (ht : IsAbs target = true)
    (hb1 : commonLen (components project) (components target) < (components project).length)
    (hb2 : commonLen (components project) (components target) < (components target).length) :
    ∃ rel, Rel project target = some rel ∧
      splitSep (ToSlash rel) =
        List.replicate ((components project).length -
            commonLen (components project) (components target)) dotdot ++
          (components target).drop (commonLen (components project) (components target)) ∧
      Join [project, ToSlash rel] = Clean target ∧
      (backslash ∉ target → backslash ∉ ToSlash rel) := by
  refine ⟨_, Rel_abs project target hp ht hb1 hb2, ?_, ?_, ?_⟩
  all_goals rw [ToSlash_eq]
  all_goals obtain ⟨hcp, hup, hop⟩ := Clean_abs project hp
  all_goals obtain ⟨hct, hut, hot⟩ := Clean_abs target ht
  all_goals rw [components_abs project hp, components_abs target ht] at hb1 hb2 ⊢
  · apply splitSep_joinSep
    · intro h
      have := congrArg List.length h
      simp only [List.length_append, List.length_replicate, List.length_drop,
        List.length_nil] at this
      omega
    · intro e he
      simp only [List.mem_append, List.mem_replicate] at he
      rcases he with ⟨_, rfl⟩ | he
      · decide
      · exact (hot e (List.mem_of_mem_drop he)).2.1
  · have hpne : project ≠ [] := by
      intro h
      rw [h] at hp
      exact absurd hp (by decide)
    have hj : ∀ r : Str, Join [project, r] = Clean (project ++ Separator :: r) := by
      intro r
      cases hpr : project with
      | nil => exact absurd hpr hpne
      | cons c cs => simp [Join, joinSep]
    rw [hj]
    have hnosep : ∀ e ∈ List.replicate ((lexOf project).names.reverse.length -
          commonLen (lexOf project).names.reverse (lexOf target).names.reverse) dotdot ++
        (lexOf target).names.reverse.drop
          (commonLen (lexOf project).names.reverse (lexOf target).names.reverse),
        Separator ∉ e := by
      intro e he
      simp only [List.mem_append, List.mem_replicate] at he
      rcases he with ⟨_, rfl⟩ | he
      · decide
      · exact (hot e (List.mem_of_mem_drop he)).2.1
    have hnn : List.replicate ((lexOf project).names.reverse.length -
          commonLen (lexOf project).names.reverse (lexOf target).names.reverse) dotdot ++
        (lexOf target).names.reverse.drop
          (commonLen (lexOf project).names.reverse (lexOf target).names.reverse) ≠ [] := by
      intro h
      have := congrArg List.length h
      simp only [List.length_append, List.length_replicate, List.length_drop,
        List.length_nil] at this
      omega
    have hlex : lexOf (project ++ Separator :: joinSep
        (List.replicate ((lexOf project).names.reverse.length -
          commonLen (lexOf project).names.reverse (lexOf target).names.reverse) dotdot ++
        (lexOf target).names.reverse.drop
          (commonLen (lexOf project).names.reverse (lexOf target).names.reverse))) =
        lexOf target := by
      rw [lexOf_append_sep project _ hpne, hp, splitSep_joinSep _ hnn hnosep, lexRun_append]
      generalize hP : (lexOf project).names.reverse = P at hb1 hb2 hop ⊢
      generalize hT : (lexOf target).names.reverse = T at hb1 hb2 hot ⊢
      have hPn : (lexOf project).names = (P.drop (commonLen P T)).reverse ++
          (P.take (commonLen P T)).reverse := by
        rw [← List.reverse_append, List.take_append_drop, ← hP, List.reverse_reverse]
      have hstate : lexOf project = ⟨0, (P.drop (commonLen P T)).reverse ++
          (P.take (commonLen P T)).reverse⟩ := by
        rw [← hPn, ← hup]
      have hlen : P.length - commonLen P T = ((P.drop (commonLen P T)).reverse).length := by
        simp
      rw [hstate, hlen, lexRun_pops,
        lexRun_ordinary true _ (fun e he => hot e (List.mem_of_mem_drop he))]
      simp only
      rw [commonLen_take P T, ← List.reverse_append, List.take_append_drop, ← hT,
        List.reverse_reverse, ← hut]
    rw [Clean_eq, Clean_eq target, hlex, isAbs_append project _ hpne, hp, ht]
  · intro hbs hmem
    rcases joinSep_mem_chars _ _ hmem with h | ⟨e, he, hc⟩
    · exact absurd h (by decide)
    · simp only [List.mem_append, List.mem_replicate] at he
      rcases he with ⟨_, rfl⟩ | he
      · exact absurd hc (by decide)
      · have he2 : e ∈ (lexOf target).names := by
          simpa using List.mem_of_mem_drop he
        have he3 : e ∈ splitSep target := by
          unfold lexOf at he2
          rcases lexRun_names_mem _ _ _ e he2 with h | h
          · simp at h
          · exact h
        exact hbs (splitSep_mem_chars target e he3 _ hc)

/-- C8, amended, for the project `/home/u/proj` and the target `/home/u/out/wasm`:
the relative path is `../out/wasm`. -/
theorem rel_between_branches_witness :
    ∃ rel, Rel "/home/u/proj".toList "/home/u/out/wasm".toList = some rel ∧
      splitSep (ToSlash rel) = [dotdot, "out".toList, "wasm".toList] ∧
      Join ["/home/u/proj".toList, ToSlash rel] = "/home/u/out/wasm".toList ∧
      (backslash ∉ "/home/u/out/wasm".toList → backslash ∉ ToSlash rel) :=
  rel_between_branches "/home/u/proj".toList "/home/u/out/wasm".toList
    (by decide) (by decide) (by decide) (by decide)

/-! ### The command router -/

/-- C3: `main` invokes exactly one handler.  With no argument it is the help handler;
with a first argument naming a registered command it is that command's handler, run
on the remaining arguments; with a first argument that names no registered command
the notice `Unknown command: <arg>` is printed first, then the help handler runs. -/
theorem main_routes_to_one_handler (args : List Str) :
    (handlerCalls (main args)).length = 1 ∧
    (args = [] → main args = HelpCommand.execute []) ∧
    (∀ arg0 rest, args = arg0 :: rest →
      (∀ c ∈ commands, c.name = arg0 →
        main args = c.execute rest ∧ handlerCalls (main args) = [(c.name, rest)]) ∧
      ((∀ c ∈ commands, c.name ≠ arg0) →
        main args = Event.println ("Unknown command: ".toList ++ arg0) :: Event.println [] ::
          HelpCommand.execute args ∧
        handlerCalls (main args) = [(HelpCommand.name, args)])) := by
  have hne : HelpCommand.name ≠ InitCommand.name := by decide
  cases args with
  | nil =>
    refine ⟨rfl, fun _ => rfl, ?_⟩
    intro arg0 rest h
    cases h
  | cons a as =>
    have hmain : main (a :: as) =
        if HelpCommand.name = a then HelpCommand.execute as
        else if InitCommand.name = a then InitCommand.execute as
        else Event.println ("Unknown command: ".toList ++ a) :: Event.println [] ::
          HelpCommand.execute (a :: as) := rfl
    refine ⟨?_, fun h => (List.cons_ne_nil _ _ h).elim, ?_⟩
    · rw [hmain]
      split
      · rfl
      · split <;> rfl
    · intro arg0 rest h
      cases h
      constructor
      · intro c hc hname
        simp only [commands, List.mem_cons, List.mem_singleton, List.not_mem_nil,
          or_false] at hc
        rcases hc with rfl | rfl
        · rw [hmain, if_pos hname]
          exact ⟨rfl, rfl⟩
        · have h1 : HelpCommand.name ≠ a := fun h => hne (h.trans hname.symm)
          rw [hmain, if_neg h1, if_pos hname]
          exact ⟨rfl, rfl⟩
      · intro hnone
        have h1 : HelpCommand.name ≠ a := hnone HelpCommand (by simp [commands])
        have h2 : InitCommand.name ≠ a := hnone InitCommand (by simp [commands])
        rw [hmain, if_neg h1, if_neg h2]
        exact ⟨rfl, rfl⟩

/-- C3 at concrete argument lists: `init 1.2.0` runs the init handler on `1.2.0`,
`frobnicate x` prints the notice and runs the help handler. -/
theorem main_routes_to_one_handler_witness :
    (main ["init".toList, "1.2.0".toList] = InitCommand.execute ["1.2.0".toList] ∧
      handlerCalls (main ["init".toList, "1.2.0".toList]) =
        [("init".toList, ["1.2.0".toList])]) ∧
    (main ["frobnicate".toList, "x".toList] =
        Event.println "Unknown command: frobnicate".toList :: Event.println [] ::
          HelpCommand.execute ["frobnicate".toList, "x".toList] ∧
      handlerCalls (main ["frobnicate".toList, "x".toList]) =
        [("help".toList, ["frobnicate".toList, "x".toList])]) :=
  ⟨((main_routes_to_one_handler ["init".toList, "1.2.0".toList]).2.2
      "init".toList ["1.2.0".toList] rfl).1 InitCommand (by simp [commands]) rfl,
   ((main_routes_to_one_handler ["frobnicate".toList, "x".toList]).2.2
      "frobnicate".toList ["x".toList] rfl).2 (by decide)⟩


end Kirok
